import Mathlib

/-!
# MyGUI `LanguageManager`: tag store, language switching and `#{tag}` substitution

A shallow embedding of `MyGUIEngine/src/MyGUI_LanguageManager.cpp`.

* `UString` values are modelled by their code-point sequence (the value of `asUTF32()`),
  `std::string` values by their byte sequence.
* `std::map` members are association lists with at most one entry per key.
* Collaborators that live outside the file (`DataManager`, `xml::Document`, the
  `UString(const std::string&)` conversion) are fields of `Env`.
* Reads through an iterator or index that lies outside its buffer have no defined
  result in C++; the embedding reports them as `Fault.outOfRange`.
-/

namespace MyGUI

/-! ## Strings -/

/-- A `UString`, given by its sequence of Unicode code points (`asUTF32()`). -/
abbrev UString := List Char

/-- A `std::string`, given by its bytes. -/
abbrev StdString := List UInt8

/-- Modelled from the spec: `UString` is declared outside the sources. The spec has the
resolver operate over Unicode code points and, after a splice, resume scanning immediately
after the inserted replacement. The code resumes at `pos + replacement.length()` in the
code-point buffer, so `length()` is taken to be the number of code points of the string. -/
def UString.length (u : UString) : Nat := List.length u

/-- The bytes of an ASCII literal, for writing `std::string` constants. -/
def ascii (s : String) : StdString := s.toList.map fun c => c.toNat.toUInt8

/-! ### `std::basic_string` editing primitives, by index -/

/-- Edit `line.insert(iter, c)` with `iter = line.begin() + i`. -/
def insertAt (line : List Char) (i : Nat) (c : Char) : List Char :=
  line.take i ++ c :: line.drop i

/-- Edit `line.erase(first, last)` with `first = begin + i`, `last = begin + j`. -/
def eraseRange (line : List Char) (i j : Nat) : List Char :=
  line.take i ++ line.drop j

/-- Edit `line.insert(pos, str)`. -/
def insertStr (line : List Char) (pos : Nat) (str : List Char) : List Char :=
  line.take pos ++ str ++ line.drop pos

/-- Copy `line.substr(pos, len)`. -/
def substr {α : Type} (line : List α) (pos len : Nat) : List α :=
  (line.drop pos).take len

/-- Offset of the first `}` of a buffer, if any. -/
def closeIndex : List Char → Option Nat
  | [] => none
  | c :: tl => if c = '}' then some 0 else (closeIndex tl).map (· + 1)

/-- The inner `while (true)` scan of `replaceTagsPass`: starting at index `iter2`, advance
until `*iter2 == '}'`; `none` when `iter2 == end` is reached first. -/
def findClose (line : List Char) (iter2 : Nat) : Option Nat :=
  (closeIndex (line.drop iter2)).map (· + iter2)

/-! ## Maps -/

/-- Lookup `std::map::find`: the value stored under a key. -/
def mapFind {κ ν : Type} [DecidableEq κ] : List (κ × ν) → κ → Option ν
  | [], _ => none
  | (k', v) :: m, k => if k' = k then some v else mapFind m k

/-- Assignment `map[key] = value`, also the helper `mapSet(map, key, value)` (declared outside
the sources; the spec gives loading overwrite semantics): overwrite or insert. -/
def mapSet {κ ν : Type} [DecidableEq κ] : List (κ × ν) → κ → ν → List (κ × ν)
  | [], k, v => [(k, v)]
  | (k', v') :: m, k, v => if k' = k then (k', v) :: m else (k', v') :: mapSet m k v

/-- Type `MapLanguageString`: `std::map<UString, UString>`. -/
abbrev MapLanguageString := List (UString × UString)

/-- Type `MapListString`: `std::map<std::string, VectorString>`. -/
abbrev MapListString := List (StdString × List StdString)

/-! ## Outcomes and observable effects -/

deriving instance DecidableEq for Except

/-- Ways an execution of the embedded code can fail to produce a value. -/
inductive Fault where
  /-- An iterator or index outside its buffer was dereferenced. -/
  | outOfRange
  /-- The iteration bound handed to a bounded loop was used up. -/
  | unfinished
  deriving DecidableEq, Repr

/-- Calls that leave the manager, in the order they are made. -/
inductive Effect where
  /-- Call `DataManager::getInstance().getData(file)`. -/
  | getData (file : StdString)
  /-- Call `eventChangeLanguage(name)`. -/
  | changeLanguage (name : StdString)
  deriving DecidableEq, Repr

/-! ## Collaborators -/

/-- An `xml::Element`: name, attributes, text content, child elements. -/
inductive XmlElement where
  | mk (name : StdString) (attributes : List (StdString × StdString))
      (content : StdString) (children : List XmlElement)

namespace XmlElement

/-- Element name. -/
def getName : XmlElement → StdString
  | mk n _ _ _ => n

/-- Accessor `findAttribute(name)`: the attribute value, or the empty string. -/
def findAttribute : XmlElement → StdString → StdString
  | mk _ attrs _ _, n => (mapFind attrs n).getD []

/-- Accessor `getContent()`. -/
def getContent : XmlElement → StdString
  | mk _ _ c _ => c

/-- Enumeration `getElementEnumerator()` followed by `next(name)`: the children called `name`,
in document order. -/
def childrenNamed : XmlElement → StdString → List XmlElement
  | mk _ _ _ cs, n => cs.filter fun e => decide (e.getName = n)

end XmlElement

/-- What the manager obtains from the rest of the engine. -/
structure Env where
  /-- Collaborator `DataManager::getData`: the bytes of the stream opened for a file name, `none`
  for a null stream. -/
  getData : StdString → Option StdString
  /-- Collaborator `xml::Document::open` followed by `getRoot()`: the root element, `none` when the
  document does not parse or has no root. -/
  xmlOpen : StdString → Option XmlElement
  /-- Conversion `UString(const std::string&)`: decoding of a byte string. -/
  toUString : StdString → UString

/-! ## The manager -/

/-- Data members of `LanguageManager`, and the effects performed so far. -/
structure LanguageManager where
  /-- Member `mMapFile`: language name to its source files, in registration order. -/
  mMapFile : MapListString
  /-- Member `mCurrentLanguageName`. -/
  mCurrentLanguageName : StdString
  /-- Member `mMapLanguage`: tags of the active language. -/
  mMapLanguage : MapLanguageString
  /-- Member `mUserMapLanguage`: user tags. -/
  mUserMapLanguage : MapLanguageString
  /-- Member `eventRequestTag`: `none` when the delegate is empty; otherwise the string the
  delegate leaves in its (initially empty) output argument for a tag. -/
  eventRequestTag : Option (UString → UString)
  /-- Calls to collaborators and notifications made so far (oldest first). -/
  trace : List Effect

namespace LanguageManager

/-- Lookup `getTag(_tag)`: language map, then user map, then the tag itself. -/
def getTag (self : LanguageManager) (tag : UString) : UString :=
  match mapFind self.mMapLanguage tag with
  | some v => v
  | none =>
    match mapFind self.mUserMapLanguage tag with
    | some v => v
    | none => tag

/-- Accessor `getCurrentLanguage`. -/
def getCurrentLanguage (self : LanguageManager) : StdString :=
  self.mCurrentLanguageName

/-- Accessor `getLanguages`: the keys of `mMapFile` (the order of the keys is not modelled). -/
def getLanguages (self : LanguageManager) : List StdString :=
  self.mMapFile.map Prod.fst

/-- Setter `addUserTag(_tag, _replace)`. -/
def addUserTag (self : LanguageManager) (tag replace : UString) : LanguageManager :=
  { self with mUserMapLanguage := mapSet self.mUserMapLanguage tag replace }

/-- Reset `clearUserTags`. -/
def clearUserTags (self : LanguageManager) : LanguageManager :=
  { self with mUserMapLanguage := [] }

/-- Notification `eventChangeLanguage(name)` to the subscribers. -/
def eventChangeLanguage (self : LanguageManager) (name : StdString) : LanguageManager :=
  { self with trace := self.trace ++ [Effect.changeLanguage name] }

/-! ### `replaceTagsPass` -/

/-- Loop variables of `replaceTagsPass`. `end` is not stored: it is reassigned to
`line.end()` after every edit of `line`, so it is always `line.length`. -/
structure PassState where
  /-- The UTF-32 working copy `line`. -/
  line : List Char
  /-- Offset `iter - line.begin()`. -/
  iter : Nat
  /-- Flag `_replaceResult`. -/
  replaceResult : Bool
  deriving DecidableEq, Repr

/-- Result of one iteration of the `for` loop. -/
inductive PassStep where
  /-- Control is back at the loop test with these variables. -/
  | next (s : PassState)
  /-- Statement `return UString(line)` was reached. -/
  | ret (line : UString) (replaceResult : Bool)
  /-- Dereference `*iter` with `iter` beyond `end`. -/
  | outOfRange
  deriving DecidableEq, Repr

/-- The tail of an iteration once the text to put in place of `#{tag}` is known:
lines 333-342. `iter` is the index of `{`, `iter2` the index of `}`. -/
def splice (s : PassState) (iter iter2 : Nat) (replacement : UString) : PassStep :=
  let line1 := eraseRange s.line (iter - 1) (iter2 + 1)
  let pos := iter - 1
  let line2 := insertStr line1 pos replacement
  let iter' := pos + UString.length replacement
  if iter' = line2.length then PassStep.ret line2 true
  else PassStep.next ⟨line2, iter', true⟩

/-- One iteration of the `for` loop of `replaceTagsPass`, starting at the loop test. -/
def replaceTagsPassStep (self : LanguageManager) (s : PassState) : PassStep :=
  if s.iter = s.line.length then PassStep.ret s.line s.replaceResult
  else
    match s.line[s.iter]? with
    | none => PassStep.outOfRange
    | some c =>
      if c = '#' then
        let iter := s.iter + 1
        match s.line[iter]? with
        | none => PassStep.ret s.line s.replaceResult
        | some d =>
          if d ≠ '{' then PassStep.next { s with iter := iter + 1 }
          else
            match findClose s.line (iter + 1) with
            | none => PassStep.ret s.line s.replaceResult
            | some iter2 =>
              let start := iter
              let len := iter2 - start - 1
              let tag := substr s.line (start + 1) len
              match mapFind self.mMapLanguage tag with
              | some replacement => splice s iter iter2 replacement
              | none =>
                match mapFind self.mUserMapLanguage tag with
                | some replacement => splice s iter iter2 replacement
                | none =>
                  match self.eventRequestTag with
                  | some request => splice s iter iter2 (request tag)
                  | none =>
                    PassStep.next
                      { s with line := insertAt s.line iter '#', iter := iter + (len + 2) }
      else PassStep.next { s with iter := s.iter + 1 }

/-- The `for` loop of `replaceTagsPass`, run for at most `fuel` iterations. -/
def replaceTagsPassLoop (self : LanguageManager) :
    Nat → PassState → Except Fault (UString × Bool)
  | 0, _ => Except.error Fault.unfinished
  | fuel + 1, s =>
    match replaceTagsPassStep self s with
    | PassStep.next s' => replaceTagsPassLoop self fuel s'
    | PassStep.ret line r => Except.ok (line, r)
    | PassStep.outOfRange => Except.error Fault.outOfRange

/-- Function `replaceTagsPass`: the resulting string and `_replaceResult`. Every iteration brings
`iter` closer to `end`, so `line.length + 1` iterations are enough
(`replaceTagsPassLoop_fuel`). -/
def replaceTagsPass (self : LanguageManager) (line : UString) : Except Fault (UString × Bool) :=
  replaceTagsPassLoop self (List.length line + 1) ⟨line, 0, false⟩

/-- Function `replaceTags`: the `do ... while (replace)` loop, run for at most `passes` passes. -/
def replaceTags (self : LanguageManager) : Nat → UString → Except Fault UString
  | 0, _ => Except.error Fault.unfinished
  | passes + 1, line =>
    match replaceTagsPass self line with
    | Except.ok (result, true) => replaceTags self passes result
    | Except.ok (result, false) => Except.ok result
    | Except.error e => Except.error e

/-! ### Loading tag files -/

/-- Store a tag in the user map (`user = true`) or in the language map. -/
def setTag (self : LanguageManager) (user : Bool) (tag value : UString) : LanguageManager :=
  if user then { self with mUserMapLanguage := mapSet self.mUserMapLanguage tag value }
  else { self with mMapLanguage := mapSet self.mMapLanguage tag value }

/-- The name and content of every root-level `Tag` element, in document order: what
`_loadLanguageXML` passes to `mapSet`. No entry when the document does not open. -/
def xmlTags (env : Env) (stream : StdString) : List (UString × UString) :=
  match env.xmlOpen stream with
  | none => []
  | some root =>
    (root.childrenNamed (ascii "Tag")).map fun tag =>
      (env.toUString (tag.findAttribute (ascii "name")), env.toUString tag.getContent)

/-- Loader of the markup format, `_loadLanguageXML`. -/
def _loadLanguageXML (env : Env) (stream : StdString) (user : Bool) (self : LanguageManager) :
    LanguageManager :=
  (xmlTags env stream).foldl (fun s kv => setTag s user kv.1 kv.2) self

/-- Modelled from the spec: `IDataStream` (`eof`, `readline`) is declared outside the sources.
The spec has the legacy parser "read lines terminated by `\n`": the loop
`while (!eof()) readline(read, '\n')` sees the pieces of the stream between line feeds, the
piece after the last line feed included. -/
def readLines : StdString → List StdString
  | [] => [[]]
  | c :: tl =>
    if c = 10 then [] :: readLines tl
    else
      match readLines tl with
      | [] => [[c]]
      | l :: ls => (c :: l) :: ls

/-- Position of the first space or tab, `read.find_first_of(" \t")`. -/
def findFirstOfBlank : StdString → Option Nat
  | [] => none
  | c :: tl => if c = 32 ∨ c = 9 then some 0 else (findFirstOfBlank tl).map (· + 1)

/-- One turn of the `while` loop of `_loadLanguage` on the line `read`, up to the map
update: `none` for a skipped line, otherwise the key and the value to store. Evaluating
`read[read.size() - 1]` on an empty buffer is an out-of-range read. -/
def legacyLine (read : StdString) : Except Fault (Option (StdString × StdString)) :=
  if read = [] then Except.ok none
  else
    let read1 := if read.head? = some 0xEF ∧ read.length > 2 then read.drop 3 else read
    match read1.getLast? with
    | none => Except.error Fault.outOfRange
    | some last =>
      let read2 := if last = 13 then read1.dropLast else read1
      if read2 = [] then Except.ok none
      else
        match findFirstOfBlank read2 with
        | none => Except.ok (some (read2, []))
        | some pos => Except.ok (some (read2.take pos, read2.drop (pos + 1)))

/-- The `while` loop of `_loadLanguage` over the lines still to read. -/
def legacyLoop (env : Env) (user : Bool) : List StdString → LanguageManager →
    Except Fault LanguageManager
  | [], self => Except.ok self
  | read :: rest, self =>
    match legacyLine read with
    | Except.error e => Except.error e
    | Except.ok none => legacyLoop env user rest self
    | Except.ok (some (k, v)) =>
      legacyLoop env user rest (setTag self user (env.toUString k) (env.toUString v))

/-- Loader of the line format, `_loadLanguage`. -/
def _loadLanguage (env : Env) (stream : StdString) (user : Bool) (self : LanguageManager) :
    Except Fault LanguageManager :=
  legacyLoop env user (readLines stream) self

/-- Test `hay.find(needle) != npos`. -/
def containsSub (needle : StdString) : StdString → Bool
  | [] => needle.isEmpty
  | c :: tl => needle.isPrefixOf (c :: tl) || containsSub needle tl

/-- Loader entry point `loadLanguage(_file, _user)`: the returned flag and the manager afterwards. -/
def loadLanguage (env : Env) (file : StdString) (user : Bool) (self : LanguageManager) :
    Except Fault (Bool × LanguageManager) :=
  let self1 := { self with trace := self.trace ++ [Effect.getData file] }
  match env.getData file with
  | none => Except.ok (false, self1)
  | some data =>
    if containsSub (ascii ".xml") file then
      Except.ok (true, _loadLanguageXML env data user self1)
    else
      match _loadLanguage env data user self1 with
      | Except.ok self2 => Except.ok (true, self2)
      | Except.error e => Except.error e

/-- Wrapper `loadUserTags(_file)`. -/
def loadUserTags (env : Env) (file : StdString) (self : LanguageManager) :
    Except Fault (Bool × LanguageManager) :=
  loadLanguage env file true self

/-- The `for (const auto& file : item->second) loadLanguage(file, false);` loop of
`setCurrentLanguage`. -/
def loadFiles (env : Env) : List StdString → LanguageManager → Except Fault LanguageManager
  | [], self => Except.ok self
  | file :: rest, self =>
    match loadLanguage env file false self with
    | Except.ok (_, self1) => loadFiles env rest self1
    | Except.error e => Except.error e

/-- Language switch `setCurrentLanguage(_name)`. -/
def setCurrentLanguage (env : Env) (name : StdString) (self : LanguageManager) :
    Except Fault LanguageManager :=
  match mapFind self.mMapFile name with
  | none => Except.ok self
  | some files =>
    match loadFiles env files { self with mMapLanguage := [], mCurrentLanguageName := name } with
    | Except.ok self1 => Except.ok (eventChangeLanguage self1 self1.mCurrentLanguageName)
    | Except.error e => Except.error e

/-! ### Derived descriptions of a pass (used to state and prove properties) -/

/-- The text that takes the place of a recognised placeholder: the language-map value, else
the user-map value, else what the delegate supplies; `none` when there is neither an
entry nor a delegate. -/
def replacementFor (self : LanguageManager) (tag : UString) : Option UString :=
  match mapFind self.mMapLanguage tag with
  | some v => some v
  | none =>
    match mapFind self.mUserMapLanguage tag with
    | some v => some v
    | none => self.eventRequestTag.map fun request => request tag

/-- Outcome of an iteration whose cursor stands on a terminated placeholder, in terms of
the text before it (`pre`), its name (`tag`) and the text after it (`post`). -/
def tagStep (self : LanguageManager) (pre tag post : List Char) (f : Bool) : PassStep :=
  match replacementFor self tag with
  | some v =>
    if pre.length + UString.length v = (pre ++ v ++ post).length then
      PassStep.ret (pre ++ v ++ post) true
    else PassStep.next ⟨pre ++ v ++ post, pre.length + UString.length v, true⟩
  | none =>
    PassStep.next
      ⟨pre ++ '#' :: '#' :: '{' :: (tag ++ '}' :: post), pre.length + 1 + (tag.length + 2), f⟩

/-- The same step seen from a buffer that has `pre` in front of it. -/
def PassStep.shift (pre : List Char) : PassStep → PassStep
  | PassStep.next s => PassStep.next ⟨pre ++ s.line, pre.length + s.iter, s.replaceResult⟩
  | PassStep.ret line r => PassStep.ret (pre ++ line) r
  | PassStep.outOfRange => PassStep.outOfRange

/-- Put `pre` in front of the string a pass returns. -/
def prepend (pre : List Char) : Except Fault (UString × Bool) → Except Fault (UString × Bool)
  | Except.ok (line, r) => Except.ok (pre ++ line, r)
  | Except.error e => Except.error e

/-- The loop of `replaceTagsPass` started at the front of `rest` with `_replaceResult = f`. -/
def passFrom (self : LanguageManager) (rest : List Char) (f : Bool) :
    Except Fault (UString × Bool) :=
  replaceTagsPassLoop self (rest.length + 1) ⟨rest, 0, f⟩

end LanguageManager

/-- The string contains the two-character sequence `#{`. -/
def hasOpen : List Char → Bool
  | [] => false
  | c :: tl => (decide (c = '#') && decide (tl.head? = some '{')) || hasOpen tl

/-- The string contains a `#{` with a `}` somewhere after it. -/
def hasClosedOpen : List Char → Bool
  | [] => false
  | c :: tl =>
    (decide (c = '#') && decide (tl.head? = some '{') && decide ('}' ∈ tl)) || hasClosedOpen tl

/-- The placeholder text `#{tag}`. -/
def placeholder (tag : UString) : UString := '#' :: '{' :: (tag ++ ['}'])

/-- The escaped placeholder text `##{tag}`. -/
def escaped (tag : UString) : UString := '#' :: '#' :: '{' :: (tag ++ ['}'])

/-- Store a list of tags in a map, first to last (later entries overwrite earlier ones). -/
def storeMap (m : MapLanguageString) (tags : List (UString × UString)) : MapLanguageString :=
  tags.foldl (fun m kv => mapSet m kv.1 kv.2) m

namespace LanguageManager

/-- The map `loadLanguage(_, user)` writes to. -/
def selectedMap (self : LanguageManager) (user : Bool) : MapLanguageString :=
  if user then self.mUserMapLanguage else self.mMapLanguage

/-- The tags the legacy loader stores for the given lines, in the order it stores them. -/
def legacyTags (env : Env) : List StdString → Except Fault (List (UString × UString))
  | [] => Except.ok []
  | read :: rest =>
    match legacyLine read with
    | Except.error e => Except.error e
    | Except.ok none => legacyTags env rest
    | Except.ok (some (k, v)) =>
      match legacyTags env rest with
      | Except.ok tags => Except.ok ((env.toUString k, env.toUString v) :: tags)
      | Except.error e => Except.error e

/-- The tags a file defines, in the order `loadLanguage` stores them: `none` when the
stream source has no such file. -/
def fileTags (env : Env) (file : StdString) : Except Fault (Option (List (UString × UString))) :=
  match env.getData file with
  | none => Except.ok none
  | some data =>
    if containsSub (ascii ".xml") file then Except.ok (some (xmlTags env data))
    else
      match legacyTags env (readLines data) with
      | Except.ok tags => Except.ok (some tags)
      | Except.error e => Except.error e

/-- The tags a list of files defines, file after file (a missing file defines none). -/
def filesTags (env : Env) : List StdString → Except Fault (List (UString × UString))
  | [] => Except.ok []
  | file :: rest =>
    match fileTags env file with
    | Except.error e => Except.error e
    | Except.ok o =>
      match filesTags env rest with
      | Except.ok tags => Except.ok (o.getD [] ++ tags)
      | Except.error e => Except.error e

/-- A manager that holds nothing: all maps empty, no language, no delegate. -/
def blank : LanguageManager := ⟨[], [], [], [], none, []⟩

end LanguageManager

/-- A sample environment: two legacy-format files, bytes decoded one code point per byte. -/
def sampleEnv : Env where
  getData := fun file =>
    if file = ascii "en.txt" then some (ascii "hi Hello\nbye\n")
    else if file = ascii "fr.txt" then some (ascii "hi Salut")
    else none
  xmlOpen := fun _ => none
  toUString := fun bytes => bytes.map fun b => Char.ofNat b.toNat

/-- A sample manager: languages `en` and `fr` registered, `fr` active, one user tag. -/
def sampleManager : LanguageManager where
  mMapFile := [(ascii "en", [ascii "en.txt"]), (ascii "fr", [ascii "fr.txt"])]
  mCurrentLanguageName := ascii "fr"
  mMapLanguage := [("hi".toList, "Salut".toList), ("oui".toList, "Oui".toList)]
  mUserMapLanguage := [("app".toList, "Demo".toList)]
  eventRequestTag := none
  trace := []

/-- A sample manager for substitution: language tag `b -> B`, no user tag, no delegate. -/
def sampleTags : LanguageManager := ⟨[], [], [(['b'], ['B'])], [], none, []⟩

/-- Accessor `findAttribute(name, value)`: the attribute value when the element has the
attribute, otherwise `value` as it was. -/
def XmlElement.findAttributeInto : XmlElement → StdString → StdString → StdString
  | XmlElement.mk _ attrs _ _, n, value => (mapFind attrs n).getD value

namespace LanguageManager

/-- Registration `mMapFile[name].push_back(file)`. -/
def registerFile (self : LanguageManager) (name file : StdString) : LanguageManager :=
  { self with mMapFile := mapSet self.mMapFile name ((mapFind self.mMapFile name).getD [] ++ [file]) }

/-- The `Source` loop of `_load` for an `Info` without name: every source is loaded as a
user tag file. -/
def loadUserSources (env : Env) : List XmlElement → LanguageManager → Except Fault LanguageManager
  | [], self => Except.ok self
  | source :: rest, self =>
    match loadLanguage env source.getContent true self with
    | Except.ok (_, self1) => loadUserSources env rest self1
    | Except.error e => Except.error e

/-- The `Source` loop of `_load` for an `Info` called `name`: every source is registered,
and loaded at once when `name` is the current language. The flag is `event_change`. -/
def loadNamedSources (env : Env) (name : StdString) :
    List XmlElement → LanguageManager × Bool → Except Fault (LanguageManager × Bool)
  | [], st => Except.ok st
  | source :: rest, (self, eventChange) =>
    let self1 := registerFile self name source.getContent
    if name = self1.mCurrentLanguageName then
      match loadLanguage env source.getContent false self1 with
      | Except.ok (_, self2) => loadNamedSources env name rest (self2, true)
      | Except.error e => Except.error e
    else loadNamedSources env name rest (self1, eventChange)

/-- The `Info` loop of `_load`. -/
def loadInfos (env : Env) :
    List XmlElement → LanguageManager × Bool → Except Fault (LanguageManager × Bool)
  | [], st => Except.ok st
  | info :: rest, (self, eventChange) =>
    let name := info.findAttribute (ascii "name")
    let sources := info.childrenNamed (ascii "Source")
    if name = [] then
      match loadUserSources env sources self with
      | Except.ok self1 => loadInfos env rest (self1, eventChange)
      | Except.error e => Except.error e
    else
      match loadNamedSources env name sources (self, eventChange) with
      | Except.ok st => loadInfos env rest st
      | Except.error e => Except.error e

/-- The loop of `_load` over the `Language` elements; the string is `default_lang`. -/
def loadRoots (env : Env) : List XmlElement → StdString × LanguageManager × Bool →
    Except Fault (StdString × LanguageManager × Bool)
  | [], st => Except.ok st
  | root :: rest, (defaultLang, self, eventChange) =>
    let defaultLang1 := root.findAttributeInto (ascii "default") defaultLang
    match loadInfos env (root.childrenNamed (ascii "Info")) (self, eventChange) with
    | Except.ok (self1, eventChange1) => loadRoots env rest (defaultLang1, self1, eventChange1)
    | Except.error e => Except.error e

/-- Markup ingestion `_load(_node, _file, _version)`. -/
def _load (env : Env) (node : XmlElement) (self : LanguageManager) : Except Fault LanguageManager :=
  match loadRoots env (node.childrenNamed (ascii "Language")) ([], self, false) with
  | Except.error e => Except.error e
  | Except.ok (defaultLang, self1, eventChange) =>
    if defaultLang ≠ [] then setCurrentLanguage env defaultLang self1
    else if eventChange then Except.ok (eventChangeLanguage self1 self1.mCurrentLanguageName)
    else Except.ok self1

end LanguageManager

/-- The line buffer after the header and carriage-return handling of `_loadLanguage`
(lines 171-177), for a line `read` that is not empty: three bytes are erased when the
first byte is `0xEF` and the line has more than two bytes, then the last byte is examined
and erased when it is a carriage return. -/
def stripLine (read : StdString) : Except Fault StdString :=
  let read1 := if read.head? = some 0xEF ∧ read.length > 2 then read.drop 3 else read
  match read1.getLast? with
  | none => Except.error Fault.outOfRange
  | some last => Except.ok (if last = 13 then read1.dropLast else read1)

/-- A byte that `find_first_of(" \t")` stops at. -/
def isBlank (c : UInt8) : Prop := c = 32 ∨ c = 9

instance (c : UInt8) : Decidable (isBlank c) := by
  unfold isBlank; infer_instance

namespace LanguageManager

/-- The result of a pass with `_replaceResult` forced to `true`. -/
def raised : Except Fault (UString × Bool) → Except Fault (UString × Bool)
  | Except.ok (line, _) => Except.ok (line, true)
  | Except.error e => Except.error e

end LanguageManager

/-- A sample manager with a self-referring tag: `A -> #{A}`. -/
def sampleCycle : LanguageManager := ⟨[], [], [(['A'], placeholder ['A'])], [], none, []⟩

/-- Number of `{` in a buffer. -/
def braces (s : List Char) : Nat := s.count '{'

/-- The registrations an `Info` element asks for: one `(name, file)` pair per `Source`
child when the `name` attribute is not empty, none otherwise. -/
def infoRegistrations (info : XmlElement) : List (StdString × StdString) :=
  if info.findAttribute (ascii "name") = [] then []
  else (info.childrenNamed (ascii "Source")).map fun source =>
    (info.findAttribute (ascii "name"), source.getContent)

/-- The registrations of a list of `Info` elements, in document order. -/
def infosRegistrations : List XmlElement → List (StdString × StdString)
  | [] => []
  | info :: rest => infoRegistrations info ++ infosRegistrations rest

/-- The registrations of a list of `Language` elements, in document order. -/
def rootsRegistrations : List XmlElement → List (StdString × StdString)
  | [] => []
  | root :: rest =>
    infosRegistrations (root.childrenNamed (ascii "Info")) ++ rootsRegistrations rest

/-- The `(name, file)` pairs a tree handed to `_load` registers, in document order. -/
def registrations (node : XmlElement) : List (StdString × StdString) :=
  rootsRegistrations (node.childrenNamed (ascii "Language"))

/-- The value of `default_lang` after the `Language` elements have been visited, starting
from `d`: the `default` attribute of the last element that has one. -/
def defaultAfter (d : StdString) : List XmlElement → StdString
  | [] => d
  | root :: rest => defaultAfter (root.findAttributeInto (ascii "default") d) rest

/-- The value of `default_lang` at the end of `_load`; empty when no `Language` element
has a (non-empty) `default` attribute. -/
def defaultLanguage (node : XmlElement) : StdString :=
  defaultAfter [] (node.childrenNamed (ascii "Language"))

/-- The registry after the given `(name, file)` pairs have been pushed, first to last. -/
def registerAll (m : MapListString) : List (StdString × StdString) → MapListString
  | [] => m
  | p :: rest => registerAll (mapSet m p.1 ((mapFind m p.1).getD [] ++ [p.2])) rest

/-- The files registered under `name` by the given pairs, in order. -/
def filesOf (name : StdString) (pairs : List (StdString × StdString)) : List StdString :=
  (pairs.filter fun p => decide (p.1 = name)).map Prod.snd

/-- Some pair registers a file under `name`. -/
def registersUnder (name : StdString) (pairs : List (StdString × StdString)) : Bool :=
  pairs.any fun p => decide (p.1 = name)

/-- The trace entries are all stream requests. -/
def OnlyRequests (loads : List Effect) : Prop := ∀ e ∈ loads, ∃ f, e = Effect.getData f

/-- The registry `m'` extends `m`: every registered name is still registered and its old
file list is a prefix of its new one. -/
def RegistryGrows (m m' : MapListString) : Prop :=
  ∀ name files, mapFind m name = some files → ∃ extra, mapFind m' name = some (files ++ extra)

namespace LanguageManager

/-- What a stretch of `_load` does to the manager `s` and to `event_change`, given the
registrations `pairs` of the elements it has visited. -/
structure Ingested (s s' : LanguageManager) (pairs : List (StdString × StdString))
    (ev ev' : Bool) : Prop where
  registry : s'.mMapFile = registerAll s.mMapFile pairs
  name : s'.mCurrentLanguageName = s.mCurrentLanguageName
  request : s'.eventRequestTag = s.eventRequestTag
  flag : ev' = (ev || registersUnder s.mCurrentLanguageName pairs)
  trace : ∃ loads, OnlyRequests loads ∧ s'.trace = s.trace ++ loads

end LanguageManager

/-- Every file of the stream source is read without an out-of-range access. -/
def Env.Safe (env : Env) : Prop := ∀ file, ∃ o, LanguageManager.fileTags env file = Except.ok o

/-- A sample tree for `_load` without `default` attribute: a source for `fr`, a source
without language name, a source for the new language `de`. -/
def sampleTree : XmlElement :=
  XmlElement.mk (ascii "MyGUI") [] [] [
    XmlElement.mk (ascii "Language") [] [] [
      XmlElement.mk (ascii "Info") [(ascii "name", ascii "fr")] [] [
        XmlElement.mk (ascii "Source") [] (ascii "fr2.txt") []],
      XmlElement.mk (ascii "Info") [] [] [
        XmlElement.mk (ascii "Source") [] (ascii "en.txt") []],
      XmlElement.mk (ascii "Info") [(ascii "name", ascii "de")] [] [
        XmlElement.mk (ascii "Source") [] (ascii "de.txt") []]]]

/-- A sample tree for `_load` whose only `Info` has no name: one user tag file. -/
def sampleUserTree : XmlElement :=
  XmlElement.mk (ascii "MyGUI") [] [] [
    XmlElement.mk (ascii "Language") [] [] [
      XmlElement.mk (ascii "Info") [] [] [
        XmlElement.mk (ascii "Source") [] (ascii "en.txt") []]]]

/-- Text in which the scan of a pass meets no terminated placeholder. The constructors are
the cases in which the scan goes on or stops without looking for a tag: a plain
character, a lone `#` at the end, a `#` with a next character other than `{` (both are
skipped), and a `#{` with no `}` after it. -/
inductive Settled : List Char → Prop where
  | nil : Settled []
  | plain (c : Char) (tl : List Char) : c ≠ '#' → Settled tl → Settled (c :: tl)
  | hashEnd : Settled ['#']
  | pair (d : Char) (tl : List Char) : d ≠ '{' → Settled tl → Settled ('#' :: d :: tl)
  | openEnd (tl : List Char) : '}' ∉ tl → Settled ('#' :: '{' :: tl)

/-- Text in which no terminated placeholder `#{name}` met by the scan of a pass has, inside
its name, a `#{` that a scan of the name would meet: the name with its `}` is settled
text. In particular a name without any `#{` is allowed. The constructors follow the scan;
after a placeholder it goes on behind the `}`. -/
inductive CleanNames : List Char → Prop where
  | nil : CleanNames []
  | plain (c : Char) (tl : List Char) : c ≠ '#' → CleanNames tl → CleanNames (c :: tl)
  | hashEnd : CleanNames ['#']
  | pair (d : Char) (tl : List Char) : d ≠ '{' → CleanNames tl → CleanNames ('#' :: d :: tl)
  | openEnd (tl : List Char) : '}' ∉ tl → CleanNames ('#' :: '{' :: tl)
  | tag (name post : List Char) : '}' ∉ name → Settled (name ++ ['}']) → CleanNames post →
      CleanNames ('#' :: '{' :: (name ++ '}' :: post))

namespace LanguageManager

/-- The buffer handed to the last pass of `replaceTags`: the first buffer, starting from
`line`, whose pass reports no replacement. -/
def lastPassInput (self : LanguageManager) : Nat → UString → Option UString
  | 0, _ => none
  | passes + 1, line =>
    match replaceTagsPass self line with
    | Except.ok (result, true) => lastPassInput self passes result
    | Except.ok (_, false) => some line
    | Except.error _ => none

/-- The state at the head of the loop of `replaceTagsPass` over `line` after `n`
iterations, when none of them has left the loop. -/
def stateAfter (self : LanguageManager) (line : UString) : Nat → Option PassState
  | 0 => some ⟨line, 0, false⟩
  | n + 1 =>
    match stateAfter self line n with
    | some s =>
      match replaceTagsPassStep self s with
      | PassStep.next s' => some s'
      | _ => none
    | none => none

end LanguageManager

end MyGUI

/-! ## Properties -/

namespace MyGUI

theorem closeIndex_eq_none {l : List Char} : closeIndex l = none ↔ '}' ∉ l := by
  induction l with
  | nil => simp [closeIndex]
  | cons c tl ih =>
    by_cases h : c = '}'
    · simp [closeIndex, h]
    · simp [closeIndex, h, ih, Ne.symm h]

theorem closeIndex_append {tag : List Char} (post : List Char) (h : '}' ∉ tag) :
    closeIndex (tag ++ '}' :: post) = some tag.length := by
  induction tag with
  | nil => simp [closeIndex]
  | cons c tl ih =>
    have hc : c ≠ '}' := fun e => h (by simp [e])
    have ht : '}' ∉ tl := fun e => h (by simp [e])
    simp [closeIndex, hc, ih ht]

theorem closeIndex_split {l : List Char} {n : Nat} (h : closeIndex l = some n) :
    '}' ∉ l.take n ∧ l = l.take n ++ '}' :: l.drop (n + 1) := by
  induction l generalizing n with
  | nil => simp [closeIndex] at h
  | cons c tl ih =>
    by_cases hc : c = '}'
    · simp [closeIndex, hc] at h
      subst h; simp [hc]
    · simp only [closeIndex, hc, if_false, Option.map_eq_some'] at h
      obtain ⟨m, hm, rfl⟩ := h
      obtain ⟨h1, h2⟩ := ih hm
      refine ⟨?_, ?_⟩
      · simp [List.take_succ_cons, Ne.symm hc, h1]
      · simp only [List.take_succ_cons, List.drop_succ_cons, List.cons_append]
        rw [← h2]

theorem getElem?_at {α : Type} (pre : List α) (c : α) (tl : List α) :
    (pre ++ c :: tl)[pre.length]? = some c := by
  rw [List.getElem?_append_right (Nat.le_refl _)]
  simp

theorem getElem?_at_succ {α : Type} (pre : List α) (c : α) (tl : List α) :
    (pre ++ c :: tl)[pre.length + 1]? = tl[0]? := by
  rw [List.getElem?_append_right (by omega)]
  simp

theorem drop_at {α : Type} (pre : List α) (tl : List α) (k : Nat) :
    (pre ++ tl).drop (pre.length + k) = tl.drop k := by
  rw [List.drop_append_eq_append_drop]
  simp

theorem take_at {α : Type} (pre : List α) (tl : List α) (k : Nat) :
    (pre ++ tl).take (pre.length + k) = pre ++ tl.take k := by
  rw [List.take_append_eq_append_take]
  simp

namespace LanguageManager

variable (self : LanguageManager)

theorem step_end (pre : List Char) (f : Bool) :
    replaceTagsPassStep self ⟨pre, pre.length, f⟩ = PassStep.ret pre f := by
  simp [replaceTagsPassStep]

theorem step_plain (pre : List Char) {c : Char} (tl : List Char) (f : Bool) (h : c ≠ '#') :
    replaceTagsPassStep self ⟨pre ++ c :: tl, pre.length, f⟩
      = PassStep.next ⟨pre ++ c :: tl, pre.length + 1, f⟩ := by
  simp only [replaceTagsPassStep, getElem?_at]
  simp [h]

theorem step_hash_end (pre : List Char) (f : Bool) :
    replaceTagsPassStep self ⟨pre ++ ['#'], pre.length, f⟩ = PassStep.ret (pre ++ ['#']) f := by
  simp only [replaceTagsPassStep, getElem?_at, getElem?_at_succ]
  simp

theorem step_pair (pre : List Char) {d : Char} (tl : List Char) (f : Bool) (h : d ≠ '{') :
    replaceTagsPassStep self ⟨pre ++ '#' :: d :: tl, pre.length, f⟩
      = PassStep.next ⟨pre ++ '#' :: d :: tl, pre.length + 2, f⟩ := by
  simp only [replaceTagsPassStep, getElem?_at, getElem?_at_succ]
  simp [h]

theorem findClose_open (pre tl : List Char) :
    findClose (pre ++ '#' :: '{' :: tl) (pre.length + 1 + 1)
      = (closeIndex tl).map (· + (pre.length + 1 + 1)) := by
  have : List.drop (pre.length + 1 + 1) (pre ++ '#' :: '{' :: tl) = tl := by
    rw [Nat.add_assoc, drop_at]; rfl
  simp only [findClose, this]

theorem step_open_unterminated (pre tl : List Char) (f : Bool) (h : '}' ∉ tl) :
    replaceTagsPassStep self ⟨pre ++ '#' :: '{' :: tl, pre.length, f⟩
      = PassStep.ret (pre ++ '#' :: '{' :: tl) f := by
  have hc := closeIndex_eq_none.mpr h
  simp only [replaceTagsPassStep, getElem?_at, getElem?_at_succ, findClose_open, hc]
  simp

theorem splice_at (pre tag post v : List Char) (f : Bool) :
    splice ⟨pre ++ '#' :: '{' :: (tag ++ '}' :: post), pre.length, f⟩ (pre.length + 1)
        (tag.length + (pre.length + 1 + 1)) v
      = if pre.length + UString.length v = (pre ++ v ++ post).length then
          PassStep.ret (pre ++ v ++ post) true
        else PassStep.next ⟨pre ++ v ++ post, pre.length + UString.length v, true⟩ := by
  have e1 : eraseRange (pre ++ '#' :: '{' :: (tag ++ '}' :: post)) pre.length
      (tag.length + (pre.length + 1 + 1) + 1) = pre ++ post := by
    have h2 : tag.length + (pre.length + 1 + 1) + 1 = pre.length + (tag.length + 3) := by omega
    have h3 : ('#' :: '{' :: (tag ++ '}' :: post)).drop (tag.length + 3) = post := by
      show (tag ++ '}' :: post).drop (tag.length + 1) = post
      rw [List.drop_append_eq_append_drop]; simp
    simp only [eraseRange, h2, drop_at, h3]
    simp
  have e2 : insertStr (pre ++ post) pre.length v = pre ++ v ++ post := by
    simp [insertStr]
  simp only [splice, Nat.add_sub_cancel, e1, e2]

theorem step_tag (pre tag post : List Char) (f : Bool) (h : '}' ∉ tag) :
    replaceTagsPassStep self ⟨pre ++ '#' :: '{' :: (tag ++ '}' :: post), pre.length, f⟩
      = tagStep self pre tag post f := by
  have hc := closeIndex_append post h
  have hsub : substr (pre ++ '#' :: '{' :: (tag ++ '}' :: post)) (pre.length + 1 + 1)
      (tag.length + (pre.length + 1 + 1) - (pre.length + 1) - 1) = tag := by
    have : tag.length + (pre.length + 1 + 1) - (pre.length + 1) - 1 = tag.length := by omega
    rw [this, substr, Nat.add_assoc, drop_at]
    show (tag ++ '}' :: post).take tag.length = tag
    simp
  have hins : insertAt (pre ++ '#' :: '{' :: (tag ++ '}' :: post)) (pre.length + 1) '#'
      = pre ++ '#' :: '#' :: '{' :: (tag ++ '}' :: post) := by
    simp [insertAt, take_at, drop_at]
  simp only [replaceTagsPassStep, getElem?_at, getElem?_at_succ, findClose_open, hc]
  simp only [List.getElem?_cons_zero, Option.map_some', hsub, splice_at, hins]
  unfold tagStep replacementFor
  cases h1 : mapFind self.mMapLanguage tag with
  | some v => simp
  | none =>
    cases h2 : mapFind self.mUserMapLanguage tag with
    | some v => simp
    | none =>
      cases h3 : self.eventRequestTag with
      | some g => simp
      | none =>
        simp
        omega

end LanguageManager

theorem UString.length_eq (u : UString) : UString.length u = List.length u := rfl

theorem UString.length_ge (u : UString) : List.length u ≤ UString.length u :=
  Nat.le_refl _

/-- Shapes of the text at the cursor that the loop body distinguishes. -/
theorem rest_cases (rest : List Char) :
    rest = [] ∨ (∃ c tl, c ≠ '#' ∧ rest = c :: tl) ∨ rest = ['#']
      ∨ (∃ d tl, d ≠ '{' ∧ rest = '#' :: d :: tl)
      ∨ (∃ tl, '}' ∉ tl ∧ rest = '#' :: '{' :: tl)
      ∨ (∃ tag post, '}' ∉ tag ∧ rest = '#' :: '{' :: (tag ++ '}' :: post)) := by
  match rest with
  | [] => exact Or.inl rfl
  | c :: tl =>
    by_cases hc : c = '#'
    · subst hc
      match tl with
      | [] => exact Or.inr (Or.inr (Or.inl rfl))
      | d :: tl' =>
        by_cases hd : d = '{'
        · subst hd
          cases hci : closeIndex tl' with
          | none =>
            exact Or.inr (Or.inr (Or.inr (Or.inr (Or.inl ⟨tl', closeIndex_eq_none.mp hci, rfl⟩))))
          | some n =>
            obtain ⟨h1, h2⟩ := closeIndex_split hci
            refine Or.inr (Or.inr (Or.inr (Or.inr (Or.inr ⟨tl'.take n, tl'.drop (n + 1), h1, ?_⟩))))
            rw [← h2]
        · exact Or.inr (Or.inr (Or.inr (Or.inl ⟨d, tl', hd, rfl⟩)))
    · exact Or.inr (Or.inl ⟨c, tl, hc, rfl⟩)

namespace LanguageManager

variable (self : LanguageManager)

theorem step_beyond (l : List Char) (iter : Nat) (f : Bool) (h : l.length < iter) :
    replaceTagsPassStep self ⟨l, iter, f⟩ = PassStep.outOfRange := by
  have h1 : iter ≠ l.length := by omega
  have h2 : l[iter]? = none := List.getElem?_eq_none (by omega)
  simp only [replaceTagsPassStep, h1, h2, if_false]

theorem tagStep_none {tag : List Char} (pre post : List Char) (f : Bool)
    (h : replacementFor self tag = none) :
    tagStep self pre tag post f = PassStep.next
      ⟨pre ++ '#' :: '#' :: '{' :: (tag ++ '}' :: post), pre.length + 1 + (tag.length + 2), f⟩ := by
  simp only [tagStep, h]

theorem tagStep_some {tag v : List Char} (pre post : List Char) (f : Bool)
    (h : replacementFor self tag = some v) :
    tagStep self pre tag post f =
      if pre.length + UString.length v = (pre ++ v ++ post).length then
        PassStep.ret (pre ++ v ++ post) true
      else PassStep.next ⟨pre ++ v ++ post, pre.length + UString.length v, true⟩ := by
  simp only [tagStep, h]

theorem tagStep_shift (pre a tag post : List Char) (f : Bool) :
    tagStep self (pre ++ a) tag post f = PassStep.shift pre (tagStep self a tag post f) := by
  unfold tagStep
  cases replacementFor self tag with
  | none =>
    simp only [PassStep.shift, List.length_append, List.append_assoc, Nat.add_assoc]
  | some v =>
    simp only [List.length_append]
    by_cases h : a.length + UString.length v = a.length + List.length v + post.length
    · have h' : pre.length + a.length + UString.length v
          = pre.length + a.length + List.length v + post.length := by omega
      rw [if_pos h, if_pos h']
      simp only [PassStep.shift, List.append_assoc]
    · have h' : ¬ pre.length + a.length + UString.length v
          = pre.length + a.length + List.length v + post.length := by omega
      rw [if_neg h, if_neg h']
      simp only [PassStep.shift, List.append_assoc, Nat.add_assoc]

/-- An iteration only looks at, and edits, the text from the cursor on. -/
theorem step_shift (pre l : List Char) (iter : Nat) (f : Bool) :
    replaceTagsPassStep self ⟨pre ++ l, pre.length + iter, f⟩
      = PassStep.shift pre (replaceTagsPassStep self ⟨l, iter, f⟩) := by
  by_cases hle : iter ≤ l.length
  · obtain ⟨a, rest, rfl, rfl⟩ : ∃ a rest, l = a ++ rest ∧ iter = a.length :=
      ⟨l.take iter, l.drop iter, (List.take_append_drop _ _).symm, by simp [hle]⟩
    have e : ∀ r : List Char, pre ++ (a ++ r) = (pre ++ a) ++ r := fun r => by simp
    have el : pre.length + a.length = (pre ++ a).length := by simp
    rw [e, el]
    rcases rest_cases rest with rfl | ⟨c, tl, hc, rfl⟩ | rfl | ⟨d, tl, hd, rfl⟩
        | ⟨tl, ht, rfl⟩ | ⟨tag, post, ht, rfl⟩
    · rw [List.append_nil, List.append_nil, step_end, step_end]; rfl
    · rw [step_plain self (pre ++ a) tl f hc, step_plain self a tl f hc]
      simp only [PassStep.shift, List.append_assoc, List.length_append, Nat.add_assoc]
    · rw [step_hash_end, step_hash_end]
      simp only [PassStep.shift, List.append_assoc]
    · rw [step_pair self (pre ++ a) tl f hd, step_pair self a tl f hd]
      simp only [PassStep.shift, List.append_assoc, List.length_append, Nat.add_assoc]
    · rw [step_open_unterminated self (pre ++ a) tl f ht, step_open_unterminated self a tl f ht]
      simp only [PassStep.shift, List.append_assoc]
    · rw [step_tag self (pre ++ a) tag post f ht, step_tag self a tag post f ht, tagStep_shift]
  · have h1 : l.length < iter := by omega
    rw [step_beyond self l iter f h1, step_beyond self _ _ f (by simp; omega)]
    rfl

/-- The step taken from a position inside the buffer makes the text after the cursor shorter. -/
theorem step_decreases (s s' : PassState) (h : s.iter < s.line.length)
    (hs : replaceTagsPassStep self s = PassStep.next s') :
    s'.line.length - s'.iter < s.line.length - s.iter := by
  obtain ⟨l, iter, f⟩ := s
  simp only at h hs ⊢
  obtain ⟨a, rest, rfl, rfl⟩ : ∃ a rest, l = a ++ rest ∧ iter = a.length :=
    ⟨l.take iter, l.drop iter, (List.take_append_drop _ _).symm, by simp; omega⟩
  rcases rest_cases rest with rfl | ⟨c, tl, hc, rfl⟩ | rfl | ⟨d, tl, hd, rfl⟩
      | ⟨tl, ht, rfl⟩ | ⟨tag, post, ht, rfl⟩
  · simp at h
  · rw [step_plain self a tl f hc] at hs
    cases hs; simp; omega
  · rw [step_hash_end] at hs; cases hs
  · rw [step_pair self a tl f hd] at hs
    cases hs; simp; omega
  · rw [step_open_unterminated self a tl f ht] at hs; cases hs
  · rw [step_tag self a tag post f ht] at hs
    cases hr : replacementFor self tag with
    | none =>
      rw [tagStep_none self a post f hr] at hs; cases hs; simp; omega
    | some v =>
      rw [tagStep_some self a post f hr] at hs
      have hv := UString.length_ge v
      by_cases hq : a.length + UString.length v = (a ++ v ++ post).length
      · rw [if_pos hq] at hs; cases hs
      · rw [if_neg hq] at hs; cases hs; simp; omega

theorem loop_succ (fuel : Nat) (s : PassState) (h : s.line.length - s.iter < fuel) :
    replaceTagsPassLoop self (fuel + 1) s = replaceTagsPassLoop self fuel s := by
  induction fuel generalizing s with
  | zero => omega
  | succ n ih =>
    rw [replaceTagsPassLoop, replaceTagsPassLoop]
    cases hs : replaceTagsPassStep self s with
    | ret l r => rfl
    | outOfRange => rfl
    | next s' =>
      simp only
      by_cases hlt : s.iter < s.line.length
      · have := step_decreases self s s' hlt hs
        exact ih s' (by omega)
      · exfalso
        by_cases heq : s.iter = s.line.length
        · obtain ⟨l, iter, f⟩ := s
          simp only at heq; subst heq
          rw [step_end] at hs; cases hs
        · obtain ⟨l, iter, f⟩ := s
          rw [step_beyond self l iter f (by simp only at hlt heq; omega)] at hs; cases hs

/-- Any iteration bound above the number of code points after the cursor gives the same result. -/
theorem replaceTagsPassLoop_fuel (fuel fuel' : Nat) (s : PassState)
    (h : s.line.length - s.iter < fuel) (h' : s.line.length - s.iter < fuel') :
    replaceTagsPassLoop self fuel s = replaceTagsPassLoop self fuel' s := by
  have key : ∀ k n, s.line.length - s.iter < n →
      replaceTagsPassLoop self (n + k) s = replaceTagsPassLoop self n s := by
    intro k
    induction k with
    | zero => intro n _; rfl
    | succ k ih =>
      intro n hn
      rw [← Nat.add_assoc, loop_succ self (n + k) s (by omega)]
      exact ih n hn
  rcases Nat.le_total fuel fuel' with hle | hle
  · obtain ⟨k, rfl⟩ := Nat.exists_eq_add_of_le hle
    exact (key k fuel h).symm
  · obtain ⟨k, rfl⟩ := Nat.exists_eq_add_of_le hle
    exact key k fuel' h'

theorem loop_shift (pre : List Char) (fuel : Nat) (s : PassState) :
    replaceTagsPassLoop self fuel ⟨pre ++ s.line, pre.length + s.iter, s.replaceResult⟩
      = prepend pre (replaceTagsPassLoop self fuel s) := by
  induction fuel generalizing s with
  | zero => rfl
  | succ n ih =>
    rw [replaceTagsPassLoop, replaceTagsPassLoop, step_shift]
    cases hs : replaceTagsPassStep self s with
    | ret l r => rfl
    | outOfRange => rfl
    | next s' => exact ih s'

@[simp] theorem prepend_ok (pre l : List Char) (r : Bool) :
    prepend pre (Except.ok (l, r)) = Except.ok (pre ++ l, r) := rfl

@[simp] theorem prepend_error (pre : List Char) (e : Fault) :
    prepend pre (Except.error e) = Except.error e := rfl

theorem prepend_prepend (a b : List Char) (x : Except Fault (UString × Bool)) :
    prepend a (prepend b x) = prepend (a ++ b) x := by
  cases x with
  | error e => rfl
  | ok p => obtain ⟨l, r⟩ := p; simp

theorem prepend_nil (x : Except Fault (UString × Bool)) : prepend [] x = x := by
  cases x with
  | error e => rfl
  | ok p => obtain ⟨l, r⟩ := p; simp

theorem replaceTagsPass_eq (l : UString) : replaceTagsPass self l = passFrom self l false := rfl

/-- The loop run from a cursor inside the buffer: the text before the cursor is kept, the
rest is what the loop makes of the text after it. -/
theorem loop_at (pre rest : List Char) (f : Bool) (fuel : Nat) (h : rest.length < fuel) :
    replaceTagsPassLoop self fuel ⟨pre ++ rest, pre.length, f⟩
      = prepend pre (passFrom self rest f) := by
  have := loop_shift self pre fuel ⟨rest, 0, f⟩
  simp only [Nat.add_zero] at this
  rw [this, passFrom, replaceTagsPassLoop_fuel self fuel (rest.length + 1) ⟨rest, 0, f⟩
    (by simpa using h) (by simp)]

theorem passFrom_nil (f : Bool) : passFrom self [] f = Except.ok ([], f) := by
  have := step_end self [] f
  simp only [List.length_nil] at this
  simp only [passFrom, List.length_nil, replaceTagsPassLoop, this]

theorem passFrom_plain {c : Char} (tl : List Char) (f : Bool) (h : c ≠ '#') :
    passFrom self (c :: tl) f = prepend [c] (passFrom self tl f) := by
  have hs := step_plain self [] tl f h
  simp only [List.length_nil, List.nil_append, Nat.zero_add] at hs
  rw [passFrom, List.length_cons, replaceTagsPassLoop, hs]
  exact loop_at self [c] tl f _ (by omega)

theorem passFrom_hash_end (f : Bool) : passFrom self ['#'] f = Except.ok (['#'], f) := by
  have hs := step_hash_end self [] f
  simp only [List.length_nil, List.nil_append] at hs
  rw [passFrom, List.length_cons, replaceTagsPassLoop, hs]

theorem passFrom_pair {d : Char} (tl : List Char) (f : Bool) (h : d ≠ '{') :
    passFrom self ('#' :: d :: tl) f = prepend ['#', d] (passFrom self tl f) := by
  have hs := step_pair self [] tl f h
  simp only [List.length_nil, List.nil_append, Nat.zero_add] at hs
  rw [passFrom, List.length_cons, replaceTagsPassLoop, hs]
  exact loop_at self ['#', d] tl f _ (by simp only [List.length_cons]; omega)

theorem passFrom_unterminated (tl : List Char) (f : Bool) (h : '}' ∉ tl) :
    passFrom self ('#' :: '{' :: tl) f = Except.ok ('#' :: '{' :: tl, f) := by
  have hs := step_open_unterminated self [] tl f h
  simp only [List.length_nil, List.nil_append] at hs
  rw [passFrom, List.length_cons, replaceTagsPassLoop, hs]

theorem passFrom_escape {tag : List Char} (post : List Char) (f : Bool) (h : '}' ∉ tag)
    (hr : replacementFor self tag = none) :
    passFrom self ('#' :: '{' :: (tag ++ '}' :: post)) f
      = prepend ('#' :: '#' :: '{' :: (tag ++ ['}'])) (passFrom self post f) := by
  have hs := step_tag self [] tag post f h
  rw [tagStep_none self [] post f hr] at hs
  simp only [List.length_nil, List.nil_append, Nat.zero_add] at hs
  rw [passFrom, List.length_cons, replaceTagsPassLoop, hs]
  have e1 : '#' :: '#' :: '{' :: (tag ++ '}' :: post) = ('#' :: '#' :: '{' :: tag) ++ ('}' :: post) := by
    simp
  have e2 : 1 + (tag.length + 2) = ('#' :: '#' :: '{' :: tag).length := by
    simp; omega
  dsimp only
  rw [e1, e2, loop_at self _ _ f _ (by simp; omega), passFrom_plain self post f (by decide),
    prepend_prepend]
  simp

theorem passFrom_replace {tag v : List Char} (post : List Char) (f : Bool) (h : '}' ∉ tag)
    (hr : replacementFor self tag = some v) :
    passFrom self ('#' :: '{' :: (tag ++ '}' :: post)) f
      = if UString.length v ≤ (v ++ post).length then
          prepend ((v ++ post).take (UString.length v))
            (passFrom self ((v ++ post).drop (UString.length v)) true)
        else Except.error Fault.outOfRange := by
  have hs := step_tag self [] tag post f h
  rw [tagStep_some self [] post f hr] at hs
  simp only [List.length_nil, List.nil_append, Nat.zero_add] at hs
  rw [passFrom, List.length_cons, replaceTagsPassLoop, hs]
  have hv := UString.length_ge v
  by_cases hq : UString.length v = (v ++ post).length
  · rw [if_pos hq, if_pos (Nat.le_of_eq hq)]
    simp only [hq, List.take_length, List.drop_length, passFrom_nil, prepend_ok, List.append_nil]
  · rw [if_neg hq]
    simp only
    by_cases hle : UString.length v ≤ (v ++ post).length
    · rw [if_pos hle]
      have e1 : v ++ post = (v ++ post).take (UString.length v) ++ (v ++ post).drop (UString.length v) :=
        (List.take_append_drop _ _).symm
      have e2 : UString.length v = ((v ++ post).take (UString.length v)).length := by
        rw [List.length_take]; omega
      conv_lhs => rw [e1]; arg 3; arg 2; rw [e2]
      rw [loop_at]
      simp only [List.length_drop, List.length_append, List.length_cons] at hle ⊢
      omega
    · rw [if_neg hle, List.length_cons, replaceTagsPassLoop, step_beyond self _ _ _ (by omega)]

/-- Splice of a replacement: the pass goes on right after it, with the flag set. -/
theorem passFrom_splice {tag v : List Char} (post : List Char) (f : Bool) (h : '}' ∉ tag)
    (hr : replacementFor self tag = some v) :
    passFrom self ('#' :: '{' :: (tag ++ '}' :: post)) f
      = prepend v (passFrom self post true) := by
  rw [passFrom_replace self post f h hr, UString.length_eq]
  simp

end LanguageManager

theorem hasClosedOpen_of_hasOpen {s : List Char} (h : hasOpen s = false) :
    hasClosedOpen s = false := by
  induction s with
  | nil => rfl
  | cons c tl ih =>
    simp only [hasOpen, Bool.or_eq_false_iff, Bool.and_eq_false_imp, decide_eq_true_eq,
      decide_eq_false_iff_not] at h
    simp only [hasClosedOpen, Bool.or_eq_false_iff, Bool.and_eq_false_imp, decide_eq_true_eq,
      decide_eq_false_iff_not, Bool.and_eq_true]
    exact ⟨fun hc => absurd hc.2 (h.1 hc.1), ih h.2⟩

theorem hasClosedOpen_tail {c : Char} {tl : List Char} (h : hasClosedOpen (c :: tl) = false) :
    hasClosedOpen tl = false := by
  simp only [hasClosedOpen, Bool.or_eq_false_iff] at h
  exact h.2

theorem not_mem_of_hasClosedOpen {tl : List Char}
    (h : hasClosedOpen ('#' :: '{' :: tl) = false) : '}' ∉ tl := by
  simp only [hasClosedOpen, Bool.or_eq_false_iff] at h
  have h1 := h.1
  simp at h1
  exact h1

namespace LanguageManager

variable (self : LanguageManager)

/-- A pass leaves a string without terminated `#{` as it is and keeps the flag. -/
theorem passFrom_stable (s : List Char) (f : Bool) (h : hasClosedOpen s = false) :
    passFrom self s f = Except.ok (s, f) := by
  suffices H : ∀ (n : Nat) (s : List Char), s.length = n → hasClosedOpen s = false →
      passFrom self s f = Except.ok (s, f) from H _ s rfl h
  intro n
  induction n using Nat.strong_induction_on with
  | _ n ih =>
    intro s hn h
    rcases rest_cases s with rfl | ⟨c, tl, hc, rfl⟩ | rfl | ⟨d, tl, hd, rfl⟩
        | ⟨tl, ht, rfl⟩ | ⟨tag, post, ht, rfl⟩
    · exact passFrom_nil self f
    · rw [passFrom_plain self tl f hc,
        ih tl.length (by simp at hn; omega) tl rfl (hasClosedOpen_tail h)]
      rfl
    · exact passFrom_hash_end self f
    · rw [passFrom_pair self tl f hd,
        ih tl.length (by simp at hn; omega) tl rfl (hasClosedOpen_tail (hasClosedOpen_tail h))]
      rfl
    · exact passFrom_unterminated self tl f ht
    · exact absurd (not_mem_of_hasClosedOpen h) (by simp)

theorem replaceTags_of_pass_false {l r : UString} (n : Nat)
    (h : replaceTagsPass self l = Except.ok (r, false)) :
    replaceTags self (n + 1) l = Except.ok r := by
  simp only [replaceTags, h]

theorem replaceTags_of_pass_true {l r : UString} (n : Nat)
    (h : replaceTagsPass self l = Except.ok (r, true)) :
    replaceTags self (n + 1) l = replaceTags self n r := by
  simp only [replaceTags, h]

theorem replacementFor_language {t v : UString} (h : mapFind self.mMapLanguage t = some v) :
    replacementFor self t = some v := by
  simp only [replacementFor, h]

theorem replacementFor_user {t v : UString} (h : mapFind self.mMapLanguage t = none)
    (h' : mapFind self.mUserMapLanguage t = some v) :
    replacementFor self t = some v := by
  simp only [replacementFor, h, h']

theorem replacementFor_none {t : UString} (h : mapFind self.mMapLanguage t = none)
    (h' : mapFind self.mUserMapLanguage t = none) (hc : self.eventRequestTag = none) :
    replacementFor self t = none := by
  simp only [replacementFor, h, h', hc, Option.map_none']

/-- A single placeholder whose replacement has no `#{`: the first pass puts the
replacement, the second changes nothing. -/
theorem replaceTags_placeholder {t v : UString} (ht : '}' ∉ t)
    (hr : replacementFor self t = some v) (hv : hasOpen v = false) (n : Nat) :
    replaceTagsPass self (placeholder t) = Except.ok (v, true)
      ∧ replaceTags self (n + 2) (placeholder t) = Except.ok v := by
  have h1 : replaceTagsPass self (placeholder t) = Except.ok (v, true) := by
    rw [replaceTagsPass_eq, placeholder, passFrom_splice self [] false ht hr,
      passFrom_nil]
    simp
  have h2 : replaceTagsPass self v = Except.ok (v, false) :=
    passFrom_stable self v false (hasClosedOpen_of_hasOpen hv)
  exact ⟨h1, by rw [replaceTags_of_pass_true self _ h1, replaceTags_of_pass_false self _ h2]⟩

end LanguageManager

open LanguageManager

theorem mapFind_mapSet {κ ν : Type} [DecidableEq κ] (m : List (κ × ν)) (k k' : κ) (v : ν) :
    mapFind (mapSet m k v) k' = if k = k' then some v else mapFind m k' := by
  induction m with
  | nil => simp [mapSet, mapFind]
  | cons e m ih =>
    obtain ⟨k0, v0⟩ := e
    by_cases h0 : k0 = k
    · subst h0
      by_cases h1 : k0 = k' <;> simp [mapSet, mapFind, h1]
    · by_cases h1 : k0 = k'
      · subst h1
        have : ¬ k = k0 := fun e => h0 e.symm
        simp [mapSet, mapFind, h0, this]
      · simp [mapSet, mapFind, h0, h1, ih]

theorem mapFind_storeMap (tags : List (UString × UString)) (m : MapLanguageString) (k : UString)
    (h : k ∉ tags.map Prod.fst) : mapFind (storeMap m tags) k = mapFind m k := by
  induction tags generalizing m with
  | nil => rfl
  | cons kv tags ih =>
    have h1 : kv.1 ≠ k := fun e => h (by simp [e])
    have h2 : k ∉ tags.map Prod.fst := fun e => h (by simp at e ⊢; exact Or.inr e)
    show mapFind (storeMap (mapSet m kv.1 kv.2) tags) k = mapFind m k
    rw [ih _ h2, mapFind_mapSet, if_neg h1]

theorem storeMap_append (m : MapLanguageString) (a b : List (UString × UString)) :
    storeMap m (a ++ b) = storeMap (storeMap m a) b := by
  simp [storeMap, List.foldl_append]

namespace LanguageManager

theorem foldl_setTag_user (tags : List (UString × UString)) (self : LanguageManager) :
    tags.foldl (fun s kv => setTag s true kv.1 kv.2) self
      = { self with mUserMapLanguage := storeMap self.mUserMapLanguage tags } := by
  induction tags generalizing self with
  | nil => rfl
  | cons kv tags ih =>
    rw [List.foldl_cons, ih]
    rfl

theorem foldl_setTag_language (tags : List (UString × UString)) (self : LanguageManager) :
    tags.foldl (fun s kv => setTag s false kv.1 kv.2) self
      = { self with mMapLanguage := storeMap self.mMapLanguage tags } := by
  induction tags generalizing self with
  | nil => rfl
  | cons kv tags ih =>
    rw [List.foldl_cons, ih]
    rfl

/-- The manager after the tags of a file have been stored by `loadLanguage(file, user)`. -/
theorem legacyLoop_eq (env : Env) (user : Bool) (lines : List StdString) (self : LanguageManager) :
    legacyLoop env user lines self =
      match legacyTags env lines with
      | Except.ok tags => Except.ok (tags.foldl (fun s kv => setTag s user kv.1 kv.2) self)
      | Except.error e => Except.error e := by
  induction lines generalizing self with
  | nil => rfl
  | cons read rest ih =>
    rw [legacyLoop, legacyTags]
    cases hl : legacyLine read with
    | error e => rfl
    | ok o =>
      cases o with
      | none => exact ih self
      | some kv =>
        obtain ⟨k, v⟩ := kv
        simp only
        rw [ih]
        cases legacyTags env rest with
        | error e => rfl
        | ok tags => rfl

theorem loadLanguage_eq (env : Env) (file : StdString) (user : Bool) (self : LanguageManager) :
    loadLanguage env file user self =
      match fileTags env file with
      | Except.error e => Except.error e
      | Except.ok none =>
        Except.ok (false, { self with trace := self.trace ++ [Effect.getData file] })
      | Except.ok (some tags) =>
        Except.ok (true, tags.foldl (fun s kv => setTag s user kv.1 kv.2)
          { self with trace := self.trace ++ [Effect.getData file] }) := by
  unfold loadLanguage fileTags
  cases hd : env.getData file with
  | none => rfl
  | some data =>
    simp only
    by_cases hx : containsSub (ascii ".xml") file = true
    · simp only [hx, if_true, _loadLanguageXML]
    · simp only [hx, if_false, _loadLanguage, legacyLoop_eq]
      cases legacyTags env (readLines data) with
      | error e => rfl
      | ok tags => rfl

theorem loadFiles_eq (env : Env) (files : List StdString) (self : LanguageManager) :
    loadFiles env files self =
      match filesTags env files with
      | Except.error e => Except.error e
      | Except.ok tags =>
        Except.ok { self with
          mMapLanguage := storeMap self.mMapLanguage tags
          trace := self.trace ++ files.map Effect.getData } := by
  induction files generalizing self with
  | nil => simp [loadFiles, filesTags, storeMap]
  | cons file rest ih =>
    rw [loadFiles, filesTags, loadLanguage_eq]
    cases hf : fileTags env file with
    | error e => rfl
    | ok o =>
      cases o with
      | none =>
        simp only [ih]
        cases filesTags env rest with
        | error e => rfl
        | ok tags => simp
      | some tags0 =>
        simp only [ih, foldl_setTag_language]
        cases filesTags env rest with
        | error e => rfl
        | ok tags => simp [storeMap_append]

theorem setCurrentLanguage_eq (env : Env) (name : StdString) (self : LanguageManager)
    (files : List StdString) (h : mapFind self.mMapFile name = some files) :
    setCurrentLanguage env name self =
      match filesTags env files with
      | Except.error e => Except.error e
      | Except.ok tags =>
        Except.ok { self with
          mMapLanguage := storeMap [] tags
          mCurrentLanguageName := name
          trace := self.trace ++ files.map Effect.getData ++ [Effect.changeLanguage name] } := by
  simp only [setCurrentLanguage, h, loadFiles_eq]
  cases filesTags env files with
  | error e => rfl
  | ok tags => rfl

end LanguageManager

open LanguageManager

namespace LanguageManager

variable (self : LanguageManager)

/-- A run of characters other than `#` is copied. -/
theorem passFrom_run (run rest : List Char) (f : Bool) (h : '#' ∉ run) :
    passFrom self (run ++ rest) f = prepend run (passFrom self rest f) := by
  induction run with
  | nil => simp [prepend_nil]
  | cons c tl ih =>
    have hc : c ≠ '#' := fun e => h (by simp [e])
    have ht : '#' ∉ tl := fun e => h (by simp [e])
    rw [List.cons_append, passFrom_plain self _ f hc, ih ht, prepend_prepend]
    rfl

/-- An escaped placeholder is copied: `##` is skipped as a pair and the rest has no `#`. -/
theorem passFrom_escaped (name tl : List Char) (f : Bool) (h : '#' ∉ name) :
    passFrom self ('#' :: '#' :: '{' :: (name ++ '}' :: tl)) f
      = prepend ('#' :: '#' :: '{' :: (name ++ ['}'])) (passFrom self tl f) := by
  have e : '{' :: (name ++ '}' :: tl) = ('{' :: (name ++ ['}'])) ++ tl := by simp
  have hrun : '#' ∉ '{' :: (name ++ ['}']) := by
    simp only [List.mem_cons, List.mem_append, List.mem_singleton, not_or]
    exact ⟨by decide, h, by decide, by simp⟩
  rw [passFrom_pair self _ f (by decide), e, passFrom_run self _ tl f hrun, prepend_prepend]
  rfl

theorem replacementFor_isSome_of_key {t : UString}
    (h : (mapFind self.mMapLanguage t).isSome ∨ (mapFind self.mUserMapLanguage t).isSome) :
    replacementFor self t ≠ none := by
  unfold replacementFor
  cases h1 : mapFind self.mMapLanguage t with
  | some v => simp
  | none =>
    cases h2 : mapFind self.mUserMapLanguage t with
    | some v => simp
    | none => simp [h1, h2] at h

end LanguageManager

open LanguageManager

/-- What `hasOpen` computes: some occurrence of `#{`. -/
theorem hasOpen_iff (s : List Char) :
    hasOpen s = true ↔ ∃ a b, s = a ++ '#' :: '{' :: b := by
  induction s with
  | nil => simp [hasOpen]
  | cons c tl ih =>
    simp only [hasOpen, Bool.or_eq_true, Bool.and_eq_true, decide_eq_true_eq, ih]
    constructor
    · rintro (⟨rfl, h⟩ | ⟨a, b, rfl⟩)
      · cases tl with
        | nil => simp at h
        | cons d tl' =>
          simp only [List.head?_cons, Option.some.injEq] at h
          exact ⟨[], tl', by rw [h]; rfl⟩
      · exact ⟨c :: a, b, rfl⟩
    · rintro ⟨a, b, e⟩
      cases a with
      | nil =>
        simp only [List.nil_append, List.cons.injEq] at e
        exact Or.inl ⟨e.1, by rw [e.2]; rfl⟩
      | cons y a =>
        simp only [List.cons_append, List.cons.injEq] at e
        exact Or.inr ⟨a, b, e.2⟩

/-- What `hasClosedOpen` computes: some occurrence of `#{` with a `}` after it. -/
theorem hasClosedOpen_iff (s : List Char) :
    hasClosedOpen s = true ↔ ∃ a b, s = a ++ '#' :: '{' :: b ∧ '}' ∈ b := by
  induction s with
  | nil => simp [hasClosedOpen]
  | cons c tl ih =>
    simp only [hasClosedOpen, Bool.or_eq_true, Bool.and_eq_true, decide_eq_true_eq, ih]
    constructor
    · rintro (⟨⟨rfl, h⟩, hm⟩ | ⟨a, b, rfl, hb⟩)
      · cases tl with
        | nil => simp at h
        | cons d tl' =>
          simp only [List.head?_cons, Option.some.injEq] at h
          subst h
          refine ⟨[], tl', rfl, ?_⟩
          simpa using hm
      · exact ⟨c :: a, b, rfl, hb⟩
    · rintro ⟨a, b, e, hb⟩
      cases a with
      | nil =>
        simp only [List.nil_append, List.cons.injEq] at e
        refine Or.inl ⟨⟨e.1, by rw [e.2]; rfl⟩, ?_⟩
        rw [e.2]; simp [hb]
      | cons y a =>
        simp only [List.cons_append, List.cons.injEq] at e
        exact Or.inr ⟨a, b, e.2, hb⟩

namespace LanguageManager

variable (self : LanguageManager)

/-- The result of `replaceTags` does not depend on the bound on the number of passes. -/
theorem replaceTags_unique {n m : Nat} {s r r' : UString}
    (h : replaceTags self n s = Except.ok r) (h' : replaceTags self m s = Except.ok r') :
    r' = r := by
  induction n generalizing m s with
  | zero => cases h
  | succ n ih =>
    cases m with
    | zero => cases h'
    | succ m =>
      rw [replaceTags] at h h'
      cases hp : replaceTagsPass self s with
      | error e => rw [hp] at h; cases h
      | ok p =>
        obtain ⟨x, f⟩ := p
        rw [hp] at h h'
        cases f with
        | true => exact ih h h'
        | false =>
          simp only [Except.ok.injEq] at h h'
          rw [← h, ← h']

/-- A larger bound on the number of passes gives the same result. -/
theorem replaceTags_mono {n : Nat} {s r : UString} (k : Nat)
    (h : replaceTags self n s = Except.ok r) : replaceTags self (n + k) s = Except.ok r := by
  induction n generalizing s with
  | zero => cases h
  | succ n ih =>
    rw [replaceTags] at h
    rw [Nat.add_right_comm, replaceTags]
    cases hp : replaceTagsPass self s with
    | error e => rw [hp] at h; cases h
    | ok p =>
      obtain ⟨x, f⟩ := p
      rw [hp] at h
      cases f with
      | true => exact ih h
      | false => exact h

end LanguageManager

theorem legacyLine_eq (read : StdString) (h : read ≠ []) :
    legacyLine read =
      match stripLine read with
      | Except.error e => Except.error e
      | Except.ok p =>
        if p = [] then Except.ok none
        else
          match findFirstOfBlank p with
          | none => Except.ok (some (p, []))
          | some pos => Except.ok (some (p.take pos, p.drop (pos + 1))) := by
  unfold legacyLine stripLine
  rw [if_neg h]
  simp only
  cases (if read.head? = some 0xEF ∧ read.length > 2 then read.drop 3 else read).getLast? with
  | none => rfl
  | some last => rfl

theorem findFirstOfBlank_none {p : StdString} (h : ∀ c ∈ p, ¬ isBlank c) :
    findFirstOfBlank p = none := by
  induction p with
  | nil => rfl
  | cons c tl ih =>
    have hc : ¬ (c = 32 ∨ c = 9) := h c (by simp)
    have ht : ∀ d ∈ tl, ¬ isBlank d := fun d hd => h d (by simp [hd])
    simp only [findFirstOfBlank, if_neg hc, ih ht, Option.map_none']

theorem findFirstOfBlank_append {name : StdString} (sep : UInt8) (rest : StdString)
    (h : ∀ c ∈ name, ¬ isBlank c) (hs : isBlank sep) :
    findFirstOfBlank (name ++ sep :: rest) = some name.length := by
  induction name with
  | nil =>
    have hs' : sep = 32 ∨ sep = 9 := hs
    simp only [List.nil_append, findFirstOfBlank, if_pos hs', List.length_nil]
  | cons c tl ih =>
    have hc : ¬ (c = 32 ∨ c = 9) := h c (by simp)
    have ht : ∀ d ∈ tl, ¬ isBlank d := fun d hd => h d (by simp [hd])
    rw [List.cons_append, findFirstOfBlank, if_neg hc, ih ht]
    rfl

/-- A line that does not start with the byte `0xEF` keeps all its bytes but a final
carriage return. -/
theorem stripLine_plain (read : StdString) (h : read ≠ []) (hh : read.head? ≠ some 0xEF) :
    ∃ last, read.getLast? = some last
      ∧ stripLine read = Except.ok (if last = 13 then read.dropLast else read) := by
  have hl : read.getLast? = some (read.getLast h) := List.getLast?_eq_getLast _ h
  refine ⟨read.getLast h, hl, ?_⟩
  have hc : ¬ (read.head? = some 0xEF ∧ read.length > 2) := fun e => hh e.1
  simp only [stripLine, if_neg hc, hl]

/-- Induction along the way the loop of `replaceTagsPass` consumes its buffer. -/
theorem scan_induction {P : List Char → Prop} (hnil : P [])
    (hplain : ∀ c tl, c ≠ '#' → P tl → P (c :: tl))
    (hend : P ['#'])
    (hpair : ∀ d tl, d ≠ '{' → P tl → P ('#' :: d :: tl))
    (hopen : ∀ tl, '}' ∉ tl → P ('#' :: '{' :: tl))
    (htag : ∀ tag post, '}' ∉ tag → (∀ k, P (post.drop k)) → P ('#' :: '{' :: (tag ++ '}' :: post)))
    (s : List Char) : P s := by
  suffices H : ∀ (n : Nat) (s : List Char), s.length = n → P s from H _ s rfl
  intro n
  induction n using Nat.strong_induction_on with
  | _ n ih =>
    intro s hn
    rcases rest_cases s with rfl | ⟨c, tl, hc, rfl⟩ | rfl | ⟨d, tl, hd, rfl⟩
        | ⟨tl, ht, rfl⟩ | ⟨tag, post, ht, rfl⟩
    · exact hnil
    · exact hplain c tl hc (ih tl.length (by simp at hn; omega) tl rfl)
    · exact hend
    · exact hpair d tl hd (ih tl.length (by simp at hn; omega) tl rfl)
    · exact hopen tl ht
    · refine htag tag post ht (fun k => ih _ ?_ _ rfl)
      simp only [List.length_cons, List.length_append, List.length_drop] at hn ⊢
      omega

theorem drop_append_of_length_le {α : Type} (v post : List α) (k : Nat) (h : v.length ≤ k) :
    (v ++ post).drop k = post.drop (k - v.length) := by
  rw [List.drop_append_eq_append_drop, List.drop_eq_nil_of_le h, List.nil_append]

namespace LanguageManager

variable (self : LanguageManager)

@[simp] theorem raised_ok (l : UString) (r : Bool) :
    raised (Except.ok (l, r)) = Except.ok (l, true) := rfl

@[simp] theorem raised_error (e : Fault) : raised (Except.error e) = Except.error e := rfl

theorem raised_prepend (pre : List Char) (x : Except Fault (UString × Bool)) :
    raised (prepend pre x) = prepend pre (raised x) := by
  cases x with
  | error e => rfl
  | ok p => obtain ⟨l, r⟩ := p; rfl

theorem raised_raised (x : Except Fault (UString × Bool)) : raised (raised x) = raised x := by
  cases x with
  | error e => rfl
  | ok p => obtain ⟨l, r⟩ := p; rfl

/-- A pass that starts with `_replaceResult` set returns what the pass started with the
flag clear returns, with the flag set: the flag is never cleared and never read. -/
theorem passFrom_true (s : List Char) :
    passFrom self s true = raised (passFrom self s false) := by
  induction s using scan_induction with
  | hnil => simp [passFrom_nil]
  | hplain c tl hc ih => rw [passFrom_plain self tl _ hc, passFrom_plain self tl _ hc, ih,
      raised_prepend]
  | hend => simp [passFrom_hash_end]
  | hpair d tl hd ih => rw [passFrom_pair self tl _ hd, passFrom_pair self tl _ hd, ih,
      raised_prepend]
  | hopen tl ht => simp [passFrom_unterminated self tl _ ht]
  | htag tag post ht ih =>
    cases hr : replacementFor self tag with
    | none =>
      rw [passFrom_escape self post _ ht hr, passFrom_escape self post _ ht hr]
      have := ih 0
      simp only [List.drop_zero] at this
      rw [this, raised_prepend]
    | some v =>
      rw [passFrom_replace self post true ht hr, passFrom_replace self post false ht hr]
      split
      · rw [raised_prepend]
        have hk := ih (UString.length v - List.length v)
        rw [← drop_append_of_length_le v post _ (UString.length_ge v)] at hk
        rw [hk, raised_raised]
      · rfl

/-- The flag of a pass that started with the flag set is set. -/
theorem passFrom_true_flag {s out : List Char} {f : Bool}
    (h : passFrom self s true = Except.ok (out, f)) : f = true := by
  rw [passFrom_true] at h
  cases hp : passFrom self s false with
  | error e => rw [hp] at h; cases h
  | ok p =>
    obtain ⟨l, r⟩ := p
    rw [hp] at h
    simp only [raised_ok, Except.ok.injEq, Prod.mk.injEq] at h
    exact h.2.symm

/-- A pass returns, whatever the buffer, the maps and the delegate. -/
theorem passFrom_total (s : List Char) (f : Bool) :
    ∃ out f', passFrom self s f = Except.ok (out, f') := by
  induction s using scan_induction generalizing f with
  | hnil => exact ⟨_, _, passFrom_nil self f⟩
  | hplain c tl hc ih =>
    obtain ⟨out, f', h⟩ := ih f
    exact ⟨c :: out, f', by rw [passFrom_plain self tl f hc, h]; rfl⟩
  | hend => exact ⟨_, _, passFrom_hash_end self f⟩
  | hpair d tl hd ih =>
    obtain ⟨out, f', h⟩ := ih f
    exact ⟨'#' :: d :: out, f', by rw [passFrom_pair self tl f hd, h]; rfl⟩
  | hopen tl ht => exact ⟨_, _, passFrom_unterminated self tl f ht⟩
  | htag tag post ht ih =>
    cases hr : replacementFor self tag with
    | none =>
      obtain ⟨out, f', h⟩ := ih 0 f
      simp only [List.drop_zero] at h
      exact ⟨_, f', by rw [passFrom_escape self post f ht hr, h]; rfl⟩
    | some v =>
      obtain ⟨out, f', h⟩ := ih 0 true
      simp only [List.drop_zero] at h
      exact ⟨v ++ out, f', by rw [passFrom_splice self post f ht hr, h]; rfl⟩

end LanguageManager

namespace LanguageManager

variable (self : LanguageManager)

/-- Splice in the middle of a buffer: text without `#`, then a placeholder that has a
replacement. The pass copies the text, puts the replacement and goes on behind it. -/
theorem replaceTagsPass_splice {p t v : UString} (r : UString) (hp : '#' ∉ p) (ht : '}' ∉ t)
    (hr : replacementFor self t = some v) :
    replaceTagsPass self (p ++ placeholder t ++ r)
      = prepend (p ++ v) (raised (replaceTagsPass self r)) := by
  have e : p ++ placeholder t ++ r = p ++ ('#' :: '{' :: (t ++ '}' :: r)) := by
    simp [placeholder]
  rw [replaceTagsPass_eq, replaceTagsPass_eq, e, passFrom_run self p _ false hp,
    passFrom_splice self r false ht hr, passFrom_true, prepend_prepend]

end LanguageManager

theorem braces_append (a b : List Char) : braces (a ++ b) = braces a + braces b := by
  simp [braces, List.count_append]

theorem braces_cons (c : Char) (s : List Char) :
    braces (c :: s) = (if c = '{' then 1 else 0) + braces s := by
  by_cases h : c = '{'
  · subst h; simp [braces]; omega
  · have h' : ¬ ('{' = c) := fun e => h e.symm
    simp [braces, List.count_cons, h, h']

theorem braces_nil : braces [] = 0 := rfl

theorem braces_hash (s : List Char) : braces ('#' :: s) = braces s := by
  rw [braces_cons, if_neg (by decide)]; omega

theorem braces_open (s : List Char) : braces ('{' :: s) = 1 + braces s := by
  rw [braces_cons, if_pos rfl]

theorem braces_close (s : List Char) : braces ('}' :: s) = braces s := by
  rw [braces_cons, if_neg (by decide)]; omega

theorem braces_eq_zero {v : List Char} (h : '{' ∉ v) : braces v = 0 := by
  simp [braces, List.count_eq_zero, h]

namespace LanguageManager

variable (self : LanguageManager)

theorem prepend_eq_ok {pre out : List Char} {f : Bool} {x : Except Fault (UString × Bool)}
    (h : prepend pre x = Except.ok (out, f)) :
    ∃ out', x = Except.ok (out', f) ∧ out = pre ++ out' := by
  cases x with
  | error e => cases h
  | ok p =>
    obtain ⟨l, r⟩ := p
    simp only [prepend_ok, Except.ok.injEq, Prod.mk.injEq] at h
    exact ⟨l, by rw [h.2], h.1.symm⟩

/-- With no delegate, what holds of every map value holds of every replacement. -/
theorem replacementFor_of_maps (hc : self.eventRequestTag = none) {P : UString → Prop}
    (hP : ∀ k v, mapFind self.mMapLanguage k = some v ∨ mapFind self.mUserMapLanguage k = some v →
      P v) {t v : UString} (h : replacementFor self t = some v) : P v := by
  unfold replacementFor at h
  cases h1 : mapFind self.mMapLanguage t with
  | some w =>
    rw [h1] at h; cases h
    exact hP t v (Or.inl h1)
  | none =>
    rw [h1] at h
    cases h2 : mapFind self.mUserMapLanguage t with
    | some w =>
      rw [h2] at h; cases h
      exact hP t v (Or.inr h2)
    | none =>
      rw [h2, hc] at h; cases h

/-- When no replacement contains `{`, a pass does not add a `{`, and a pass that raises
the flag removes one. -/
theorem passFrom_braces (hv : ∀ t v, replacementFor self t = some v → '{' ∉ v)
    (s : List Char) (f : Bool) (out : List Char) (f' : Bool)
    (h : passFrom self s f = Except.ok (out, f')) :
    braces out ≤ braces s ∧ (f = false → f' = true → braces out < braces s) := by
  induction s using scan_induction generalizing f out f' with
  | hnil =>
    rw [passFrom_nil] at h
    simp only [Except.ok.injEq, Prod.mk.injEq] at h
    obtain ⟨rfl, rfl⟩ := h
    exact ⟨Nat.le_refl _, fun h1 h2 => by rw [h1] at h2; cases h2⟩
  | hplain c tl hc ih =>
    rw [passFrom_plain self tl f hc] at h
    obtain ⟨out', h1, rfl⟩ := prepend_eq_ok h
    obtain ⟨i1, i2⟩ := ih f out' f' h1
    simp only [List.singleton_append, braces_cons]
    exact ⟨by omega, fun a b => by have := i2 a b; omega⟩
  | hend =>
    rw [passFrom_hash_end] at h
    simp only [Except.ok.injEq, Prod.mk.injEq] at h
    obtain ⟨rfl, rfl⟩ := h
    exact ⟨Nat.le_refl _, fun h1 h2 => by rw [h1] at h2; cases h2⟩
  | hpair d tl hd ih =>
    rw [passFrom_pair self tl f hd] at h
    obtain ⟨out', h1, rfl⟩ := prepend_eq_ok h
    obtain ⟨i1, i2⟩ := ih f out' f' h1
    simp only [List.cons_append, List.nil_append, braces_cons]
    exact ⟨by omega, fun a b => by have := i2 a b; omega⟩
  | hopen tl ht =>
    rw [passFrom_unterminated self tl f ht] at h
    simp only [Except.ok.injEq, Prod.mk.injEq] at h
    obtain ⟨rfl, rfl⟩ := h
    exact ⟨Nat.le_refl _, fun h1 h2 => by rw [h1] at h2; cases h2⟩
  | htag tag post ht ih =>
    have ih0 := ih 0
    simp only [List.drop_zero] at ih0
    cases hr : replacementFor self tag with
    | none =>
      rw [passFrom_escape self post f ht hr] at h
      obtain ⟨out', h1, rfl⟩ := prepend_eq_ok h
      obtain ⟨i1, i2⟩ := ih0 f out' f' h1
      simp only [List.cons_append, List.append_assoc, List.singleton_append, braces_hash,
        braces_open, braces_close, braces_append, braces_nil]
      exact ⟨by omega, fun a b => by have := i2 a b; omega⟩
    | some v =>
      have hv1 := hv tag v hr
      rw [passFrom_splice self post f ht hr] at h
      obtain ⟨out', h1, rfl⟩ := prepend_eq_ok h
      obtain ⟨i1, _⟩ := ih0 true out' f' h1
      simp only [braces_hash, braces_open, braces_close, braces_append, braces_eq_zero hv1]
      exact ⟨by omega, fun _ _ => by omega⟩

/-- When no replacement contains `{`, `replaceTags` returns within one pass more than the
number of `{` in its input. -/
theorem replaceTags_terminates
    (hv : ∀ t v, replacementFor self t = some v → '{' ∉ v)
    (k : Nat) (s : UString) (hk : braces s ≤ k) :
    ∃ r, replaceTags self (k + 1) s = Except.ok r := by
  induction k generalizing s with
  | zero =>
    obtain ⟨out, f', h⟩ := passFrom_total self s false
    cases f' with
    | false => exact ⟨out, replaceTags_of_pass_false self 0 h⟩
    | true =>
      have := (passFrom_braces self hv s false out true h).2 rfl rfl
      omega
  | succ k ih =>
    obtain ⟨out, f', h⟩ := passFrom_total self s false
    cases f' with
    | false => exact ⟨out, replaceTags_of_pass_false self _ h⟩
    | true =>
      have := (passFrom_braces self hv s false out true h).2 rfl rfl
      obtain ⟨r, hr⟩ := ih out (by omega)
      exact ⟨r, by rw [replaceTags_of_pass_true self _ h]; exact hr⟩

/-- From a cursor inside the buffer, an iteration leaves the cursor inside the buffer. -/
theorem step_in_bounds (s s' : PassState) (h : s.iter ≤ s.line.length)
    (hs : replaceTagsPassStep self s = PassStep.next s') : s'.iter ≤ s'.line.length := by
  obtain ⟨l, iter, f⟩ := s
  simp only at h hs ⊢
  obtain ⟨a, rest, rfl, rfl⟩ : ∃ a rest, l = a ++ rest ∧ iter = a.length :=
    ⟨l.take iter, l.drop iter, (List.take_append_drop _ _).symm, by simp; omega⟩
  rcases rest_cases rest with rfl | ⟨c, tl, hc, rfl⟩ | rfl | ⟨d, tl, hd, rfl⟩
      | ⟨tl, ht, rfl⟩ | ⟨tag, post, ht, rfl⟩
  · rw [List.append_nil, step_end] at hs; cases hs
  · rw [step_plain self a tl f hc] at hs
    cases hs; simp
  · rw [step_hash_end] at hs; cases hs
  · rw [step_pair self a tl f hd] at hs
    cases hs; simp
  · rw [step_open_unterminated self a tl f ht] at hs; cases hs
  · rw [step_tag self a tag post f ht] at hs
    cases hr : replacementFor self tag with
    | none =>
      rw [tagStep_none self a post f hr] at hs; cases hs; simp; omega
    | some v =>
      rw [tagStep_some self a post f hr, UString.length_eq] at hs
      by_cases hq : a.length + List.length v = (a ++ v ++ post).length
      · rw [if_pos hq] at hs; cases hs
      · rw [if_neg hq] at hs; cases hs; simp

/-- The loop of a pass stops within its iteration bound, by a `return` or by an
out-of-range read. -/
theorem replaceTagsPassLoop_bounded (fuel : Nat) (s : PassState)
    (h : s.line.length - s.iter < fuel) :
    replaceTagsPassLoop self fuel s ≠ Except.error Fault.unfinished := by
  induction fuel generalizing s with
  | zero => omega
  | succ n ih =>
    rw [replaceTagsPassLoop]
    cases hs : replaceTagsPassStep self s with
    | ret l r => simp
    | outOfRange => simp
    | next s' =>
      simp only
      by_cases hlt : s.iter < s.line.length
      · have := step_decreases self s s' hlt hs
        exact ih s' (by omega)
      · exfalso
        obtain ⟨l, iter, f⟩ := s
        by_cases heq : iter = l.length
        · subst heq
          rw [step_end] at hs; cases hs
        · rw [step_beyond self l iter f (by simp only at hlt heq; omega)] at hs; cases hs

theorem replaceTagsPass_bounded (s : UString) :
    replaceTagsPass self s ≠ Except.error Fault.unfinished :=
  replaceTagsPassLoop_bounded self _ _ (by simp)

end LanguageManager

theorem registerAll_append (m : MapListString) (a b : List (StdString × StdString)) :
    registerAll m (a ++ b) = registerAll (registerAll m a) b := by
  induction a generalizing m with
  | nil => rfl
  | cons p a ih => exact ih _

theorem registersUnder_append (n : StdString) (a b : List (StdString × StdString)) :
    registersUnder n (a ++ b) = (registersUnder n a || registersUnder n b) := by
  simp [registersUnder, List.any_append]

theorem onlyRequests_append {a b : List Effect} (ha : OnlyRequests a) (hb : OnlyRequests b) :
    OnlyRequests (a ++ b) := by
  intro e he
  rcases List.mem_append.mp he with h | h
  · exact ha e h
  · exact hb e h

namespace LanguageManager

theorem ingested_same (s : LanguageManager) (ev : Bool) : Ingested s s [] ev ev :=
  ⟨rfl, rfl, rfl, by simp [registersUnder], [], (fun _ h => by cases h), by simp⟩

theorem Ingested.trans {s1 s2 s3 : LanguageManager} {p q : List (StdString × StdString)}
    {e1 e2 e3 : Bool} (h1 : Ingested s1 s2 p e1 e2) (h2 : Ingested s2 s3 q e2 e3) :
    Ingested s1 s3 (p ++ q) e1 e3 := by
  obtain ⟨l1, o1, t1⟩ := h1.trace
  obtain ⟨l2, o2, t2⟩ := h2.trace
  refine ⟨?_, h2.name.trans h1.name, h2.request.trans h1.request, ?_, l1 ++ l2,
    onlyRequests_append o1 o2, ?_⟩
  · rw [h2.registry, h1.registry, registerAll_append]
  · rw [h2.flag, h1.flag, h1.name, registersUnder_append, Bool.or_assoc]
  · rw [t2, t1, List.append_assoc]

/-- A call of `loadLanguage` touches neither the registry nor the current language nor the
delegate, and adds one stream request to the trace. -/
theorem loadLanguage_frame {env : Env} {file : StdString} {user b : Bool}
    {self s' : LanguageManager} (h : loadLanguage env file user self = Except.ok (b, s')) :
    s'.mMapFile = self.mMapFile ∧ s'.mCurrentLanguageName = self.mCurrentLanguageName
      ∧ s'.eventRequestTag = self.eventRequestTag
      ∧ s'.trace = self.trace ++ [Effect.getData file] := by
  rw [loadLanguage_eq] at h
  cases hf : fileTags env file with
  | error e => rw [hf] at h; cases h
  | ok o =>
    rw [hf] at h
    cases o with
    | none =>
      simp only [Except.ok.injEq, Prod.mk.injEq] at h
      obtain ⟨_, rfl⟩ := h
      exact ⟨rfl, rfl, rfl, rfl⟩
    | some tags =>
      simp only [Except.ok.injEq, Prod.mk.injEq] at h
      obtain ⟨_, rfl⟩ := h
      cases user with
      | true => rw [foldl_setTag_user]; exact ⟨rfl, rfl, rfl, rfl⟩
      | false => rw [foldl_setTag_language]; exact ⟨rfl, rfl, rfl, rfl⟩

theorem loadLanguage_ingested {env : Env} {file : StdString} {user b : Bool}
    {self s' : LanguageManager} (ev : Bool)
    (h : loadLanguage env file user self = Except.ok (b, s')) : Ingested self s' [] ev ev := by
  obtain ⟨h1, h2, h3, h4⟩ := loadLanguage_frame h
  exact ⟨h1, h2, h3, by simp [registersUnder], [Effect.getData file],
    fun e he => ⟨file, by simpa using he⟩, h4⟩

theorem loadUserSources_ingested (env : Env) (sources : List XmlElement)
    (self s' : LanguageManager) (ev : Bool)
    (h : loadUserSources env sources self = Except.ok s') : Ingested self s' [] ev ev := by
  induction sources generalizing self with
  | nil =>
    simp only [loadUserSources, Except.ok.injEq] at h
    subst h
    exact ingested_same self ev
  | cons source rest ih =>
    rw [loadUserSources] at h
    cases hl : loadLanguage env source.getContent true self with
    | error e => rw [hl] at h; cases h
    | ok p =>
      obtain ⟨b, s1⟩ := p
      rw [hl] at h
      exact (loadLanguage_ingested ev hl).trans (ih s1 h)

theorem registerFile_ingested (self : LanguageManager) (name file : StdString) (ev : Bool) :
    Ingested self (registerFile self name file) [(name, file)] ev
      (ev || decide (name = self.mCurrentLanguageName)) :=
  ⟨rfl, rfl, rfl, by simp [registersUnder], [], (fun _ h => by cases h), by simp [registerFile]⟩

theorem loadNamedSources_ingested (env : Env) (name : StdString) (sources : List XmlElement)
    (self s' : LanguageManager) (ev ev' : Bool)
    (h : loadNamedSources env name sources (self, ev) = Except.ok (s', ev')) :
    Ingested self s' (sources.map fun source => (name, source.getContent)) ev ev' := by
  induction sources generalizing self ev with
  | nil =>
    simp only [loadNamedSources, Except.ok.injEq, Prod.mk.injEq] at h
    obtain ⟨rfl, rfl⟩ := h
    exact ingested_same self ev
  | cons source rest ih =>
    rw [loadNamedSources] at h
    have hreg := registerFile_ingested self name source.getContent ev
    by_cases hn : name = (registerFile self name source.getContent).mCurrentLanguageName
    · rw [if_pos hn] at h
      cases hl : loadLanguage env source.getContent false
          (registerFile self name source.getContent) with
      | error e => rw [hl] at h; cases h
      | ok p =>
        obtain ⟨b, s2⟩ := p
        rw [hl] at h
        have hn' : name = self.mCurrentLanguageName := hn
        have e1 : (ev || decide (name = self.mCurrentLanguageName)) = true := by simp [hn']
        rw [e1] at hreg
        have := (hreg.trans (loadLanguage_ingested true hl)).trans (ih s2 true h)
        simpa using this
    · rw [if_neg hn] at h
      have hn' : ¬ name = self.mCurrentLanguageName := hn
      have e1 : (ev || decide (name = self.mCurrentLanguageName)) = ev := by simp [hn']
      rw [e1] at hreg
      have := hreg.trans (ih _ ev h)
      simpa using this

theorem loadInfos_ingested (env : Env) (infos : List XmlElement)
    (self s' : LanguageManager) (ev ev' : Bool)
    (h : loadInfos env infos (self, ev) = Except.ok (s', ev')) :
    Ingested self s' (infosRegistrations infos) ev ev' := by
  induction infos generalizing self ev with
  | nil =>
    simp only [loadInfos, Except.ok.injEq, Prod.mk.injEq] at h
    obtain ⟨rfl, rfl⟩ := h
    exact ingested_same self ev
  | cons info rest ih =>
    rw [loadInfos] at h
    by_cases hn : info.findAttribute (ascii "name") = []
    · rw [if_pos hn] at h
      cases hl : loadUserSources env (info.childrenNamed (ascii "Source")) self with
      | error e => rw [hl] at h; cases h
      | ok s1 =>
        rw [hl] at h
        have := (loadUserSources_ingested env _ self s1 ev hl).trans (ih s1 ev h)
        simpa [infosRegistrations, infoRegistrations, hn] using this
    · rw [if_neg hn] at h
      cases hl : loadNamedSources env (info.findAttribute (ascii "name"))
          (info.childrenNamed (ascii "Source")) (self, ev) with
      | error e => rw [hl] at h; cases h
      | ok st =>
        obtain ⟨s1, ev1⟩ := st
        rw [hl] at h
        have := (loadNamedSources_ingested env _ _ self s1 ev ev1 hl).trans (ih s1 ev1 h)
        simpa [infosRegistrations, infoRegistrations, hn] using this

theorem loadRoots_ingested (env : Env) (roots : List XmlElement) (d d' : StdString)
    (self s' : LanguageManager) (ev ev' : Bool)
    (h : loadRoots env roots (d, self, ev) = Except.ok (d', s', ev')) :
    Ingested self s' (rootsRegistrations roots) ev ev' ∧ d' = defaultAfter d roots := by
  induction roots generalizing self ev d with
  | nil =>
    simp only [loadRoots, Except.ok.injEq, Prod.mk.injEq] at h
    obtain ⟨rfl, rfl, rfl⟩ := h
    exact ⟨ingested_same self ev, rfl⟩
  | cons root rest ih =>
    rw [loadRoots] at h
    cases hl : loadInfos env (root.childrenNamed (ascii "Info")) (self, ev) with
    | error e => rw [hl] at h; cases h
    | ok st =>
      obtain ⟨s1, ev1⟩ := st
      rw [hl] at h
      obtain ⟨i1, i2⟩ := ih _ s1 ev1 h
      exact ⟨(loadInfos_ingested env _ self s1 ev ev1 hl).trans i1, i2⟩

end LanguageManager

theorem filesOf_cons (n : StdString) (p : StdString × StdString)
    (rest : List (StdString × StdString)) :
    filesOf n (p :: rest) = if p.1 = n then p.2 :: filesOf n rest else filesOf n rest := by
  by_cases h : p.1 = n <;> simp [filesOf, List.filter_cons, h]

/-- The file list of a name after a run of registrations: the old list followed by the
files registered under that name, in order. -/
theorem mapFind_registerAll (m : MapListString) (pairs : List (StdString × StdString))
    (n : StdString) :
    mapFind (registerAll m pairs) n =
      if filesOf n pairs = [] then mapFind m n
      else some ((mapFind m n).getD [] ++ filesOf n pairs) := by
  induction pairs generalizing m with
  | nil => simp [registerAll, filesOf]
  | cons p rest ih =>
    rw [registerAll, ih, mapFind_mapSet, filesOf_cons]
    by_cases h : p.1 = n
    · subst h
      simp only [if_true, Option.getD_some]
      by_cases hr : filesOf p.1 rest = []
      · simp [hr]
      · simp [hr]
    · simp only [if_neg h]

theorem registryGrows_registerAll (m : MapListString) (pairs : List (StdString × StdString)) :
    RegistryGrows m (registerAll m pairs) := by
  intro n files h
  rw [mapFind_registerAll, h]
  by_cases hr : filesOf n pairs = []
  · exact ⟨[], by simp [hr]⟩
  · exact ⟨filesOf n pairs, by simp [hr]⟩

theorem registryGrows_same (m : MapListString) : RegistryGrows m m :=
  fun _ files h => ⟨[], by simp [h]⟩

theorem mem_keys_of_mapFind {κ ν : Type} [DecidableEq κ] {m : List (κ × ν)} {k : κ} {v : ν}
    (h : mapFind m k = some v) : k ∈ m.map Prod.fst := by
  induction m with
  | nil => cases h
  | cons e m ih =>
    obtain ⟨k0, v0⟩ := e
    by_cases h0 : k0 = k
    · simp [h0]
    · simp only [mapFind, if_neg h0] at h
      simp [ih h]

theorem filesOf_ne_nil {p : StdString × StdString} {pairs : List (StdString × StdString)}
    (h : p ∈ pairs) : filesOf p.1 pairs ≠ [] := by
  intro e
  have : p.2 ∈ filesOf p.1 pairs := by
    simp only [filesOf, List.mem_map, List.mem_filter, decide_eq_true_eq]
    exact ⟨p, ⟨h, rfl⟩, rfl⟩
  rw [e] at this
  cases this

theorem mem_keys_registerAll (m : MapListString) {p : StdString × StdString}
    {pairs : List (StdString × StdString)} (h : p ∈ pairs) :
    p.1 ∈ (registerAll m pairs).map Prod.fst := by
  have := mapFind_registerAll m pairs p.1
  rw [if_neg (filesOf_ne_nil h)] at this
  exact mem_keys_of_mapFind this

theorem infoRegistrations_name {info : XmlElement} {p : StdString × StdString}
    (h : p ∈ infoRegistrations info) : p.1 ≠ [] := by
  unfold infoRegistrations at h
  by_cases hn : info.findAttribute (ascii "name") = []
  · rw [if_pos hn] at h; cases h
  · rw [if_neg hn] at h
    simp only [List.mem_map] at h
    obtain ⟨_, _, rfl⟩ := h
    exact hn

theorem infosRegistrations_name {infos : List XmlElement} {p : StdString × StdString}
    (h : p ∈ infosRegistrations infos) : p.1 ≠ [] := by
  induction infos with
  | nil => cases h
  | cons info rest ih =>
    rcases List.mem_append.mp h with h1 | h1
    · exact infoRegistrations_name h1
    · exact ih h1

theorem rootsRegistrations_name {roots : List XmlElement} {p : StdString × StdString}
    (h : p ∈ rootsRegistrations roots) : p.1 ≠ [] := by
  induction roots with
  | nil => cases h
  | cons root rest ih =>
    rcases List.mem_append.mp h with h1 | h1
    · exact infosRegistrations_name h1
    · exact ih h1

namespace LanguageManager

/-- A language switch leaves the registry and the delegate alone. -/
theorem setCurrentLanguage_registry {env : Env} {name : StdString} {self s' : LanguageManager}
    (h : setCurrentLanguage env name self = Except.ok s') : s'.mMapFile = self.mMapFile := by
  cases hf : mapFind self.mMapFile name with
  | none =>
    simp only [setCurrentLanguage, hf, Except.ok.injEq] at h
    rw [← h]
  | some files =>
    rw [setCurrentLanguage_eq env name self files hf] at h
    cases ht : filesTags env files with
    | error e => rw [ht] at h; cases h
    | ok tags =>
      rw [ht] at h
      simp only [Except.ok.injEq] at h
      rw [← h]

theorem loadLanguage_returns {env : Env} (hs : env.Safe) (file : StdString) (user : Bool)
    (self : LanguageManager) : ∃ b s', loadLanguage env file user self = Except.ok (b, s') := by
  obtain ⟨o, ho⟩ := hs file
  rw [loadLanguage_eq, ho]
  cases o with
  | none => exact ⟨_, _, rfl⟩
  | some tags => exact ⟨_, _, rfl⟩

theorem filesTags_returns {env : Env} (hs : env.Safe) (files : List StdString) :
    ∃ tags, filesTags env files = Except.ok tags := by
  induction files with
  | nil => exact ⟨[], rfl⟩
  | cons file rest ih =>
    obtain ⟨o, ho⟩ := hs file
    obtain ⟨tags, ht⟩ := ih
    exact ⟨o.getD [] ++ tags, by simp only [filesTags, ho, ht]⟩

theorem setCurrentLanguage_returns {env : Env} (hs : env.Safe) (name : StdString)
    (self : LanguageManager) : ∃ s', setCurrentLanguage env name self = Except.ok s' := by
  cases hf : mapFind self.mMapFile name with
  | none => exact ⟨self, by simp only [setCurrentLanguage, hf]⟩
  | some files =>
    obtain ⟨tags, ht⟩ := filesTags_returns hs files
    rw [setCurrentLanguage_eq env name self files hf, ht]
    exact ⟨_, rfl⟩

theorem loadUserSources_returns {env : Env} (hs : env.Safe) (sources : List XmlElement)
    (self : LanguageManager) : ∃ s', loadUserSources env sources self = Except.ok s' := by
  induction sources generalizing self with
  | nil => exact ⟨self, rfl⟩
  | cons source rest ih =>
    obtain ⟨b, s1, h1⟩ := loadLanguage_returns hs source.getContent true self
    obtain ⟨s2, h2⟩ := ih s1
    exact ⟨s2, by rw [loadUserSources, h1]; exact h2⟩

theorem loadNamedSources_returns {env : Env} (hs : env.Safe) (name : StdString)
    (sources : List XmlElement) (st : LanguageManager × Bool) :
    ∃ st', loadNamedSources env name sources st = Except.ok st' := by
  induction sources generalizing st with
  | nil => exact ⟨st, rfl⟩
  | cons source rest ih =>
    obtain ⟨self, ev⟩ := st
    rw [loadNamedSources]
    by_cases hn : name = (registerFile self name source.getContent).mCurrentLanguageName
    · simp only [if_pos hn]
      obtain ⟨b, s1, h1⟩ := loadLanguage_returns hs source.getContent false
        (registerFile self name source.getContent)
      rw [h1]
      exact ih _
    · simp only [if_neg hn]
      exact ih _

theorem loadInfos_returns {env : Env} (hs : env.Safe) (infos : List XmlElement)
    (st : LanguageManager × Bool) : ∃ st', loadInfos env infos st = Except.ok st' := by
  induction infos generalizing st with
  | nil => exact ⟨st, rfl⟩
  | cons info rest ih =>
    obtain ⟨self, ev⟩ := st
    rw [loadInfos]
    by_cases hn : info.findAttribute (ascii "name") = []
    · simp only [if_pos hn]
      obtain ⟨s1, h1⟩ := loadUserSources_returns hs (info.childrenNamed (ascii "Source")) self
      rw [h1]
      exact ih _
    · simp only [if_neg hn]
      obtain ⟨st1, h1⟩ := loadNamedSources_returns hs (info.findAttribute (ascii "name"))
        (info.childrenNamed (ascii "Source")) (self, ev)
      rw [h1]
      exact ih _

theorem loadRoots_returns {env : Env} (hs : env.Safe) (roots : List XmlElement)
    (st : StdString × LanguageManager × Bool) :
    ∃ st', loadRoots env roots st = Except.ok st' := by
  induction roots generalizing st with
  | nil => exact ⟨st, rfl⟩
  | cons root rest ih =>
    obtain ⟨d, self, ev⟩ := st
    rw [loadRoots]
    obtain ⟨st1, h1⟩ := loadInfos_returns hs (root.childrenNamed (ascii "Info")) (self, ev)
    obtain ⟨s1, ev1⟩ := st1
    simp only [h1]
    exact ih _

/-- Markup ingestion returns when no file of the stream source faults. -/
theorem _load_returns {env : Env} (hs : env.Safe) (node : XmlElement) (self : LanguageManager) :
    ∃ s', _load env node self = Except.ok s' := by
  obtain ⟨st, h⟩ := loadRoots_returns hs (node.childrenNamed (ascii "Language")) ([], self, false)
  obtain ⟨d, s1, ev⟩ := st
  rw [_load, h]
  simp only
  by_cases hd : d ≠ []
  · rw [if_pos hd]; exact setCurrentLanguage_returns hs d s1
  · rw [if_neg hd]
    cases ev with
    | true => exact ⟨_, rfl⟩
    | false => exact ⟨_, rfl⟩

/-- Markup ingestion in terms of its registrations. -/
theorem _load_ingested {env : Env} {node : XmlElement} {self s' : LanguageManager}
    (h : _load env node self = Except.ok s') :
    ∃ s1 ev, Ingested self s1 (registrations node) false ev
      ∧ (if defaultLanguage node ≠ [] then
          setCurrentLanguage env (defaultLanguage node) s1 = Except.ok s'
        else if ev = true then s' = eventChangeLanguage s1 s1.mCurrentLanguageName
        else s' = s1) := by
  rw [_load] at h
  cases hl : loadRoots env (node.childrenNamed (ascii "Language")) ([], self, false) with
  | error e => rw [hl] at h; cases h
  | ok st =>
    obtain ⟨d, s1, ev⟩ := st
    rw [hl] at h
    obtain ⟨i1, i2⟩ := loadRoots_ingested env _ _ _ self s1 false ev hl
    refine ⟨s1, ev, i1, ?_⟩
    have hd : d = defaultLanguage node := i2
    subst hd
    simp only at h
    by_cases hne : defaultLanguage node ≠ []
    · rw [if_pos hne] at h ⊢; exact h
    · rw [if_neg hne] at h ⊢
      cases ev with
      | true => simp only [if_true, Except.ok.injEq] at h ⊢; exact h.symm
      | false => simp at h ⊢; exact h.symm

end LanguageManager

/-- The sample environment has no file with a three-byte line that starts with `0xEF`. -/
theorem sampleEnv_safe : sampleEnv.Safe := by
  intro file
  by_cases h1 : file = ascii "en.txt"
  · subst h1; exact ⟨_, rfl⟩
  · by_cases h2 : file = ascii "fr.txt"
    · subst h2; exact ⟨_, rfl⟩
    · exact ⟨none, by simp only [fileTags, sampleEnv, if_neg h1, if_neg h2]⟩

open LanguageManager


namespace LanguageManager

variable (self : LanguageManager)

/-- A pass leaves settled text as it is and keeps the flag. -/
theorem passFrom_of_settled {r : List Char} (h : Settled r) (f : Bool) :
    passFrom self r f = Except.ok (r, f) := by
  induction h with
  | nil => exact passFrom_nil self f
  | plain c tl hc _ ih => rw [passFrom_plain self tl f hc, ih]; rfl
  | hashEnd => exact passFrom_hash_end self f
  | pair d tl hd _ ih => rw [passFrom_pair self tl f hd, ih]; rfl
  | openEnd tl ht => exact passFrom_unterminated self tl f ht

/-- When `replaceTags` returns, its last pass ran over `lastPassInput`, reported no
replacement and returned the result. -/
theorem lastPassInput_spec {n : Nat} {s r : UString} (h : replaceTags self n s = Except.ok r) :
    ∃ l, lastPassInput self n s = some l ∧ replaceTagsPass self l = Except.ok (r, false) := by
  induction n generalizing s with
  | zero => cases h
  | succ n ih =>
    rw [replaceTags] at h
    rw [lastPassInput]
    cases hp : replaceTagsPass self s with
    | error e => rw [hp] at h; cases h
    | ok p =>
      obtain ⟨l, fl⟩ := p
      rw [hp] at h
      cases fl with
      | true => exact ih h
      | false =>
        simp only [Except.ok.injEq] at h
        subst h
        exact ⟨s, rfl, hp⟩

end LanguageManager

/-- In settled text a `#{` that has a `}` after it stands behind a run of `#` of odd
length: its `#` is the second character of a pair that the scan skips. -/
theorem Settled.open_after_odd {r : List Char} (h : Settled r) (a z : List Char)
    (hz : '}' ∈ z) (e : r = a ++ '#' :: '{' :: z) :
    ∃ a' k, a = a' ++ List.replicate (2 * k + 1) '#' ∧ a'.getLast? ≠ some '#' := by
  induction h generalizing a with
  | nil => cases a <;> simp at e
  | plain c tl hc _ ih =>
    cases a with
    | nil => simp at e; exact absurd e.1 hc
    | cons y a =>
      simp only [List.cons_append, List.cons.injEq] at e
      obtain ⟨a', k, rfl, hl⟩ := ih a e.2
      refine ⟨y :: a', k, rfl, ?_⟩
      cases a' with
      | nil =>
        simp only [List.getLast?_singleton, ne_eq, Option.some.injEq]
        rw [← e.1]; exact hc
      | cons x a'' => rw [List.getLast?_cons_cons]; exact hl
  | hashEnd =>
    cases a with
    | nil => simp at e
    | cons y a => cases a <;> simp at e
  | pair d tl hd _ ih =>
    cases a with
    | nil => simp at e; exact absurd e.1 hd
    | cons y a =>
      cases a with
      | nil =>
        simp only [List.cons_append, List.nil_append, List.cons.injEq] at e
        exact ⟨[], 0, by rw [← e.1]; rfl, by simp⟩
      | cons y2 a =>
        simp only [List.cons_append, List.cons.injEq] at e
        obtain ⟨hy, hy2, e'⟩ := e
        subst hy hy2
        obtain ⟨a', k, rfl, hl⟩ := ih a e'
        cases a' with
        | nil =>
          by_cases hd' : d = '#'
          · subst hd'
            refine ⟨[], k + 1, ?_, by simp⟩
            have e2 : 2 * (k + 1) + 1 = (2 * k + 1) + 1 + 1 := by omega
            rw [e2]
            rfl
          · refine ⟨['#', d], k, rfl, ?_⟩
            simp only [List.getLast?_cons_cons, List.getLast?_singleton, ne_eq, Option.some.injEq]
            exact hd'
        | cons x a'' =>
          refine ⟨'#' :: d :: x :: a'', k, rfl, ?_⟩
          rw [List.getLast?_cons_cons, List.getLast?_cons_cons]; exact hl
  | openEnd tl ht =>
    exfalso
    apply ht
    have hm : '}' ∈ a ++ '#' :: '{' :: z := by simp [hz]
    rw [← e] at hm
    simpa using hm

theorem Settled.of_plain {c : Char} {tl : List Char} (hc : c ≠ '#') (h : Settled (c :: tl)) :
    Settled tl := by
  cases h with
  | plain _ _ _ h' => exact h'
  | hashEnd => exact absurd rfl hc
  | pair d tl' _ _ => exact absurd rfl hc
  | openEnd tl' _ => exact absurd rfl hc

theorem Settled.of_pair {d : Char} {tl : List Char} (hd : d ≠ '{') (h : Settled ('#' :: d :: tl)) :
    Settled tl := by
  cases h with
  | plain _ _ hc _ => exact absurd rfl hc
  | pair _ _ _ h' => exact h'
  | openEnd tl' _ => exact absurd rfl hd

theorem Settled.of_open {tl : List Char} (h : Settled ('#' :: '{' :: tl)) : '}' ∉ tl := by
  cases h with
  | plain _ _ hc _ => exact absurd rfl hc
  | pair _ _ hd _ => exact absurd rfl hd
  | openEnd _ h' => exact h'

/-- A placeholder name that is settled with its `}`, put before settled text, gives settled
text: the scan copies the name, taking a final `#` of the name together with the `}`. -/
theorem settled_name (name rest : List Char) (hn : '}' ∉ name) (h : Settled (name ++ ['}']))
    (hr : Settled rest) : Settled (name ++ '}' :: rest) := by
  suffices H : ∀ (n : Nat) (name : List Char), name.length = n → '}' ∉ name →
      Settled (name ++ ['}']) → Settled (name ++ '}' :: rest) from H _ name rfl hn h
  intro n
  induction n using Nat.strong_induction_on with
  | _ n ih =>
    intro name hlen hn h
    match name, hlen, hn, h with
    | [], _, _, _ => exact Settled.plain '}' rest (by decide) hr
    | c :: tl, hlen, hn, h =>
      have hn' : '}' ∉ tl := fun e => hn (by simp [e])
      by_cases hc : c = '#'
      · subst hc
        match tl, hlen, hn, hn', h with
        | [], _, _, _, _ => exact Settled.pair '}' rest (by decide) hr
        | d :: tl', hlen, hn, hn', h =>
          have hn'' : '}' ∉ tl' := fun e => hn' (by simp [e])
          by_cases hd : d = '{'
          · subst hd
            exact absurd (Settled.of_open h) (by simp)
          · exact Settled.pair d _ hd
              (ih tl'.length (by simp at hlen; omega) tl' rfl hn'' (Settled.of_pair hd h))
      · exact Settled.plain c _ hc
          (ih tl.length (by simp at hlen; omega) tl rfl hn' (Settled.of_plain hc h))

/-- Settled text that starts with a placeholder name and its `}`: the name with the `}` is
settled, and so is the text behind. -/
theorem settled_split (name rest : List Char) (hn : '}' ∉ name)
    (h : Settled (name ++ '}' :: rest)) : Settled (name ++ ['}']) ∧ Settled rest := by
  suffices H : ∀ (n : Nat) (name : List Char), name.length = n → '}' ∉ name →
      Settled (name ++ '}' :: rest) → Settled (name ++ ['}']) ∧ Settled rest from H _ name rfl hn h
  intro n
  induction n using Nat.strong_induction_on with
  | _ n ih =>
    intro name hlen hn h
    match name, hlen, hn, h with
    | [], _, _, h =>
      exact ⟨Settled.plain '}' [] (by decide) Settled.nil, Settled.of_plain (by decide) h⟩
    | c :: tl, hlen, hn, h =>
      have hn' : '}' ∉ tl := fun e => hn (by simp [e])
      by_cases hc : c = '#'
      · subst hc
        match tl, hlen, hn, hn', h with
        | [], _, _, _, h =>
          exact ⟨Settled.pair '}' [] (by decide) Settled.nil, Settled.of_pair (by decide) h⟩
        | d :: tl', hlen, hn, hn', h =>
          have hn'' : '}' ∉ tl' := fun e => hn' (by simp [e])
          by_cases hd : d = '{'
          · subst hd
            exact absurd (Settled.of_open h) (by simp)
          · obtain ⟨h1, h2⟩ :=
              ih tl'.length (by simp at hlen; omega) tl' rfl hn'' (Settled.of_pair hd h)
            exact ⟨Settled.pair d _ hd h1, h2⟩
      · obtain ⟨h1, h2⟩ := ih tl.length (by simp at hlen; omega) tl rfl hn' (Settled.of_plain hc h)
        exact ⟨Settled.plain c _ hc h1, h2⟩

/-- A name without `#{` is settled with its `}`. -/
theorem settled_of_hasOpen (name : List Char) (h : hasOpen name = false) :
    Settled (name ++ ['}']) := by
  suffices H : ∀ (n : Nat) (name : List Char), name.length = n → hasOpen name = false →
      Settled (name ++ ['}']) from H _ name rfl h
  intro n
  induction n using Nat.strong_induction_on with
  | _ n ih =>
    intro name hn h
    match name, hn, h with
    | [], _, _ => exact Settled.plain '}' [] (by decide) Settled.nil
    | c :: tl, hn, h =>
      have htl : hasOpen tl = false := by
        simp only [hasOpen, Bool.or_eq_false_iff] at h
        exact h.2
      by_cases hc : c = '#'
      · subst hc
        match tl, hn, h, htl with
        | [], _, _, _ => exact Settled.pair '}' [] (by decide) Settled.nil
        | d :: tl', hn, h, htl =>
          have hd : d ≠ '{' := by
            intro e
            subst e
            simp [hasOpen] at h
          have htl' : hasOpen tl' = false := by
            simp only [hasOpen, Bool.or_eq_false_iff] at htl
            exact htl.2
          exact Settled.pair d _ hd (ih tl'.length (by simp at hn; omega) tl' rfl htl')
      · exact Settled.plain c _ hc (ih tl.length (by simp at hn; omega) tl rfl htl)

namespace LanguageManager

variable (self : LanguageManager)

/-- A pass that reports no replacement over text with clean placeholder names returns
settled text. -/
theorem settled_of_passFrom {s : List Char} (hs : CleanNames s) (f : Bool) (out : List Char)
    (h : passFrom self s f = Except.ok (out, false)) : Settled out := by
  induction hs generalizing f out with
  | nil =>
    rw [passFrom_nil] at h
    simp only [Except.ok.injEq, Prod.mk.injEq] at h
    rw [← h.1]; exact Settled.nil
  | plain c tl hc _ ih =>
    rw [passFrom_plain self tl f hc] at h
    obtain ⟨out', h1, rfl⟩ := prepend_eq_ok h
    exact Settled.plain c out' hc (ih f out' h1)
  | hashEnd =>
    rw [passFrom_hash_end] at h
    simp only [Except.ok.injEq, Prod.mk.injEq] at h
    rw [← h.1]; exact Settled.hashEnd
  | pair d tl hd _ ih =>
    rw [passFrom_pair self tl f hd] at h
    obtain ⟨out', h1, rfl⟩ := prepend_eq_ok h
    exact Settled.pair d out' hd (ih f out' h1)
  | openEnd tl ht =>
    rw [passFrom_unterminated self tl f ht] at h
    simp only [Except.ok.injEq, Prod.mk.injEq] at h
    rw [← h.1]; exact Settled.openEnd tl ht
  | tag name post hn ho _ ih =>
    cases hr : replacementFor self name with
    | none =>
      rw [passFrom_escape self post f hn hr] at h
      obtain ⟨out', h1, rfl⟩ := prepend_eq_ok h
      have e : '#' :: '#' :: '{' :: (name ++ ['}']) ++ out'
          = '#' :: '#' :: '{' :: (name ++ '}' :: out') := by simp
      rw [e]
      exact Settled.pair '#' _ (by decide)
        (Settled.plain '{' _ (by decide) (settled_name name out' hn ho (ih f out' h1)))
    | some v =>
      rw [passFrom_splice self post f hn hr] at h
      obtain ⟨out', h1, _⟩ := prepend_eq_ok h
      exact absurd (passFrom_true_flag self h1) (by decide)

/-- Text that a pass returns as it is, reporting no replacement, is settled. -/
theorem settled_of_fixed (r : List Char) (f : Bool)
    (h : passFrom self r f = Except.ok (r, false)) : Settled r := by
  induction r using scan_induction generalizing f with
  | hnil => exact Settled.nil
  | hplain c tl hc ih =>
    rw [passFrom_plain self tl f hc] at h
    obtain ⟨out', h1, e⟩ := prepend_eq_ok h
    simp only [List.singleton_append, List.cons.injEq, true_and] at e
    rw [← e] at h1
    exact Settled.plain c tl hc (ih f h1)
  | hend => exact Settled.hashEnd
  | hpair d tl hd ih =>
    rw [passFrom_pair self tl f hd] at h
    obtain ⟨out', h1, e⟩ := prepend_eq_ok h
    simp only [List.cons_append, List.nil_append, List.cons.injEq, true_and] at e
    rw [← e] at h1
    exact Settled.pair d tl hd (ih f h1)
  | hopen tl ht => exact Settled.openEnd tl ht
  | htag tag post ht ih =>
    cases hr : replacementFor self tag with
    | none =>
      rw [passFrom_escape self post f ht hr] at h
      obtain ⟨out', _, e⟩ := prepend_eq_ok h
      simp at e
    | some v =>
      rw [passFrom_splice self post f ht hr] at h
      obtain ⟨out', h1, _⟩ := prepend_eq_ok h
      exact absurd (passFrom_true_flag self h1) (by decide)

/-- If a pass reports no replacement and returns settled text, the placeholder names of
its input were clean. -/
theorem cleanNames_of_settled (s : List Char) (f : Bool) (out : List Char)
    (h : passFrom self s f = Except.ok (out, false)) (ho : Settled out) : CleanNames s := by
  induction s using scan_induction generalizing f out with
  | hnil => exact CleanNames.nil
  | hplain c tl hc ih =>
    rw [passFrom_plain self tl f hc] at h
    obtain ⟨out', h1, rfl⟩ := prepend_eq_ok h
    exact CleanNames.plain c tl hc (ih f out' h1 (Settled.of_plain hc ho))
  | hend => exact CleanNames.hashEnd
  | hpair d tl hd ih =>
    rw [passFrom_pair self tl f hd] at h
    obtain ⟨out', h1, rfl⟩ := prepend_eq_ok h
    exact CleanNames.pair d tl hd (ih f out' h1 (Settled.of_pair hd ho))
  | hopen tl ht => exact CleanNames.openEnd tl ht
  | htag tag post ht ih =>
    cases hr : replacementFor self tag with
    | none =>
      rw [passFrom_escape self post f ht hr] at h
      obtain ⟨out', h1, rfl⟩ := prepend_eq_ok h
      have e : '#' :: '#' :: '{' :: (tag ++ ['}']) ++ out'
          = '#' :: '#' :: '{' :: (tag ++ '}' :: out') := by simp
      rw [e] at ho
      have h2 : Settled (tag ++ '}' :: out') :=
        Settled.of_plain (by decide) (Settled.of_pair (by decide) ho)
      obtain ⟨h3, h4⟩ := settled_split tag out' ht h2
      have ih0 := ih 0 f out'
      simp only [List.drop_zero] at ih0
      exact CleanNames.tag tag post ht h3 (ih0 h1 h4)
    | some v =>
      rw [passFrom_splice self post f ht hr] at h
      obtain ⟨out', h1, _⟩ := prepend_eq_ok h
      exact absurd (passFrom_true_flag self h1) (by decide)

end LanguageManager

open LanguageManager

namespace LanguageManager

variable (self : LanguageManager)

/-- At the head of every iteration of a pass the cursor is inside the buffer or at its end. -/
theorem stateAfter_in_bounds (line : UString) (n : Nat) (s : PassState)
    (h : stateAfter self line n = some s) : s.iter ≤ List.length s.line := by
  induction n generalizing s with
  | zero =>
    simp only [stateAfter, Option.some.injEq] at h
    rw [← h]; exact Nat.zero_le _
  | succ n ih =>
    rw [stateAfter] at h
    cases hp : stateAfter self line n with
    | none => rw [hp] at h; cases h
    | some s0 =>
      rw [hp] at h
      simp only at h
      cases hs : replaceTagsPassStep self s0 with
      | ret l r => rw [hs] at h; cases h
      | outOfRange => rw [hs] at h; cases h
      | next s1 =>
        rw [hs] at h
        simp only [Option.some.injEq] at h
        subst h
        exact step_in_bounds self s0 s1 (ih s0 hp) hs

/-- An iteration that goes on started with the cursor before the end of the buffer. -/
theorem step_next_lt (s s' : PassState) (h : s.iter ≤ List.length s.line)
    (hs : replaceTagsPassStep self s = PassStep.next s') : s.iter < List.length s.line := by
  rcases Nat.lt_or_ge s.iter (List.length s.line) with hlt | hge
  · exact hlt
  · exfalso
    have he : s.iter = List.length s.line := Nat.le_antisymm h hge
    obtain ⟨l, iter, f⟩ := s
    simp only at he
    subst he
    rw [step_end] at hs
    cases hs

/-- The iteration at a placeholder that has a replacement: the span is replaced and the
cursor is put behind the replacement. -/
theorem step_splice (pre tag post v : UString) (f : Bool) (ht : '}' ∉ tag)
    (hr : replacementFor self tag = some v) :
    replaceTagsPassStep self ⟨pre ++ placeholder tag ++ post, List.length pre, f⟩
      = if List.length pre + List.length v = List.length (pre ++ v ++ post) then
          PassStep.ret (pre ++ v ++ post) true
        else PassStep.next ⟨pre ++ v ++ post, List.length pre + List.length v, true⟩ := by
  have e : pre ++ placeholder tag ++ post = pre ++ '#' :: '{' :: (tag ++ '}' :: post) := by
    simp [placeholder]
  rw [e, step_tag self pre tag post f ht, tagStep_some self pre post f hr, UString.length_eq]

end LanguageManager

open LanguageManager

namespace LanguageManager

variable (self : LanguageManager)

/-- The states of `stateAfter` are those the loop of the pass goes through: from the state
after `n` iterations the loop does what it does from the start with `n` iterations more. -/
theorem loop_stateAfter (line : UString) (n : Nat) (s : PassState)
    (h : stateAfter self line n = some s) (k : Nat) :
    replaceTagsPassLoop self (n + k) ⟨line, 0, false⟩ = replaceTagsPassLoop self k s := by
  induction n generalizing s k with
  | zero =>
    simp only [stateAfter, Option.some.injEq] at h
    rw [← h, Nat.zero_add]
  | succ n ih =>
    rw [stateAfter] at h
    cases hp : stateAfter self line n with
    | none => rw [hp] at h; cases h
    | some s0 =>
      rw [hp] at h
      simp only at h
      cases hs : replaceTagsPassStep self s0 with
      | ret l r => rw [hs] at h; cases h
      | outOfRange => rw [hs] at h; cases h
      | next s1 =>
        rw [hs] at h
        simp only [Option.some.injEq] at h
        subst h
        rw [Nat.add_right_comm, Nat.add_assoc, ih s0 hp (k + 1), replaceTagsPassLoop, hs]

end LanguageManager

open LanguageManager

namespace LanguageManager

/-- A manager without tags and delegate has no replacement for any tag. -/
theorem replacementFor_blank (t : UString) : replacementFor blank t = none := rfl

/-- A pass of the manager without tags and delegate keeps the flag it started with. -/
theorem passFrom_blank_flag (s : List Char) (f : Bool) (out : List Char) (f' : Bool)
    (h : passFrom blank s f = Except.ok (out, f')) : f' = f := by
  induction s using scan_induction generalizing f out f' with
  | hnil =>
    rw [passFrom_nil] at h
    simp only [Except.ok.injEq, Prod.mk.injEq] at h
    exact h.2.symm
  | hplain c tl hc ih =>
    rw [passFrom_plain blank tl f hc] at h
    obtain ⟨out', h1, _⟩ := prepend_eq_ok h
    exact ih f out' f' h1
  | hend =>
    rw [passFrom_hash_end] at h
    simp only [Except.ok.injEq, Prod.mk.injEq] at h
    exact h.2.symm
  | hpair d tl hd ih =>
    rw [passFrom_pair blank tl f hd] at h
    obtain ⟨out', h1, _⟩ := prepend_eq_ok h
    exact ih f out' f' h1
  | hopen tl ht =>
    rw [passFrom_unterminated blank tl f ht] at h
    simp only [Except.ok.injEq, Prod.mk.injEq] at h
    exact h.2.symm
  | htag tag post ht ih =>
    rw [passFrom_escape blank post f ht (replacementFor_blank tag)] at h
    obtain ⟨out', h1, _⟩ := prepend_eq_ok h
    have ih0 := ih 0 f out' f'
    simp only [List.drop_zero] at ih0
    exact ih0 h1

end LanguageManager

/-- Settled text is text that a pass returns as it is, reporting no replacement; the
manager without tags and delegate decides it. -/
theorem settled_iff_blank (r : List Char) :
    Settled r ↔ replaceTagsPass blank r = Except.ok (r, false) :=
  ⟨fun h => passFrom_of_settled blank h false, fun h => settled_of_fixed blank r false h⟩

/-- Text has clean placeholder names when escaping all its placeholders, as a pass of the
manager without tags and delegate does, gives settled text. -/
theorem cleanNames_iff_blank (l : List Char) :
    CleanNames l ↔ ∃ out, replaceTagsPass blank l = Except.ok (out, false) ∧ Settled out := by
  constructor
  · intro h
    obtain ⟨out, f', ho⟩ := passFrom_total blank l false
    have hf := passFrom_blank_flag l false out f' ho
    subst hf
    exact ⟨out, ho, settled_of_passFrom blank h false out ho⟩
  · rintro ⟨out, ho, hs⟩
    exact cleanNames_of_settled blank l false out ho hs

/-! ## The claims -/

open LanguageManager

/-- C1 (as stated, refuted). With the tag `t` in both maps, `getTag` and `replaceTags` give
the language-map value `L`, not the user-map value `U`. -/
theorem C1_user_precedence_counterexample :
    mapFind (LanguageManager.mk [] [] [(['t'], ['L'])] [(['t'], ['U'])] none []).mMapLanguage ['t']
        = some ['L']
      ∧ mapFind (LanguageManager.mk [] [] [(['t'], ['L'])] [(['t'], ['U'])] none []).mUserMapLanguage
          ['t'] = some ['U']
      ∧ hasOpen ['U'] = false ∧ '}' ∉ ['t']
      ∧ getTag ⟨[], [], [(['t'], ['L'])], [(['t'], ['U'])], none, []⟩ ['t'] ≠ ['U']
      ∧ replaceTags ⟨[], [], [(['t'], ['L'])], [(['t'], ['U'])], none, []⟩ 2 (placeholder ['t'])
          = Except.ok ['L']
      ∧ ∀ n, replaceTags ⟨[], [], [(['t'], ['L'])], [(['t'], ['U'])], none, []⟩ n
          (placeholder ['t']) ≠ Except.ok ['U'] :=
  ⟨by decide, by decide, by decide, by decide, by decide, by decide, fun n h =>
    absurd (replaceTags_unique _ (n := 2) (r := ['L']) (by decide) h) (by decide)⟩

/-- C1 (amended). Language tags take precedence over user tags: for a tag `t` that is a key
of both maps, with language value `l` and user value `u`, `getTag t = l`; and when `t` has
no `}` and `l` has no `#{`, `replaceTags` of `#{t}` returns `l` (after two passes). -/
theorem C1_language_precedence (self : LanguageManager) (t l u : UString)
    (hl : mapFind self.mMapLanguage t = some l) (_hu : mapFind self.mUserMapLanguage t = some u) :
    getTag self t = l
      ∧ ('}' ∉ t → hasOpen l = false →
          ∀ n, replaceTags self (n + 2) (placeholder t) = Except.ok l) := by
  refine ⟨by simp only [getTag, hl], fun ht ho n => ?_⟩
  exact (replaceTags_placeholder self ht (replacementFor_language self hl) ho n).2

/-- Instance of the amended C1: `t` stored as `L` in the language map and as `U` in the user map. -/
theorem C1_language_precedence_witness :
    getTag ⟨[], [], [(['t'], ['L'])], [(['t'], ['U'])], none, []⟩ ['t'] = ['L']
      ∧ replaceTags ⟨[], [], [(['t'], ['L'])], [(['t'], ['U'])], none, []⟩ 2
          (placeholder ['t']) = Except.ok ['L'] :=
  ⟨(C1_language_precedence ⟨[], [], [(['t'], ['L'])], [(['t'], ['U'])], none, []⟩ ['t'] ['L'] ['U']
      (by decide) (by decide)).1,
    (C1_language_precedence ⟨[], [], [(['t'], ['L'])], [(['t'], ['U'])], none, []⟩ ['t'] ['L'] ['U']
      (by decide) (by decide)).2 (by decide) (by decide) 0⟩

/-- C2. A string with no `#{` that is followed later by a `}` (so every string without
`#{`, and every unterminated placeholder) is returned unchanged by `replaceTags`,
whatever the maps hold and whether or not a delegate is set: the single pass returns it
as it is and reports no replacement. -/
theorem C2_unterminated_fixed (self : LanguageManager) (s : UString)
    (h : hasClosedOpen s = false) (n : Nat) :
    replaceTagsPass self s = Except.ok (s, false)
      ∧ replaceTags self (n + 1) s = Except.ok s := by
  have h1 := passFrom_stable self s false h
  exact ⟨h1, replaceTags_of_pass_false self n h1⟩

/-- Instance of C2: the unterminated placeholder `#{abc`, with `abc` a known tag and a delegate set. -/
theorem C2_unterminated_fixed_witness :
    hasClosedOpen ['#', '{', 'a', 'b', 'c'] = false
      ∧ replaceTagsPass ⟨[], [], [(['a', 'b', 'c'], ['x'])], [], some fun _ => ['y'], []⟩
          ['#', '{', 'a', 'b', 'c'] = Except.ok (['#', '{', 'a', 'b', 'c'], false)
      ∧ replaceTags ⟨[], [], [(['a', 'b', 'c'], ['x'])], [], some fun _ => ['y'], []⟩ 1
          ['#', '{', 'a', 'b', 'c'] = Except.ok ['#', '{', 'a', 'b', 'c'] :=
  ⟨by decide, C2_unterminated_fixed _ _ (by decide) 0⟩

/-- C3 (as stated, refuted). A registered tag whose name contains `}` is not what the
placeholder built from it names: with `a}b -> v` registered, `#{a}b}` is read as the
unknown tag `a` and escaped. And a user value is not returned when the language map has
the tag too. -/
theorem C3_registered_counterexample :
    mapFind (LanguageManager.mk [] [] [] [(['a', '}', 'b'], ['v'])] none []).mUserMapLanguage
        ['a', '}', 'b'] = some ['v']
      ∧ hasOpen ['v'] = false
      ∧ replaceTags ⟨[], [], [], [(['a', '}', 'b'], ['v'])], none, []⟩ 1
          (placeholder ['a', '}', 'b']) = Except.ok (escaped ['a', '}', 'b'])
      ∧ (∀ n, replaceTags ⟨[], [], [], [(['a', '}', 'b'], ['v'])], none, []⟩ n
          (placeholder ['a', '}', 'b']) ≠ Except.ok ['v'])
      ∧ mapFind (LanguageManager.mk [] [] [(['t'], ['w'])] [(['t'], ['v'])] none []).mUserMapLanguage
          ['t'] = some ['v']
      ∧ replaceTags ⟨[], [], [(['t'], ['w'])], [(['t'], ['v'])], none, []⟩ 2 (placeholder ['t'])
          = Except.ok ['w']
      ∧ ∀ n, replaceTags ⟨[], [], [(['t'], ['w'])], [(['t'], ['v'])], none, []⟩ n
          (placeholder ['t']) ≠ Except.ok ['v'] :=
  ⟨by decide, by decide, by decide,
    fun n h => absurd (replaceTags_unique _ (n := 1) (r := escaped ['a', '}', 'b']) (by decide) h)
      (by decide),
    by decide, by decide,
    fun n h => absurd (replaceTags_unique _ (n := 2) (r := ['w']) (by decide) h) (by decide)⟩

/-- C3 (amended). For a tag `t` without `}` whose registered value `v` (the language-map
value, or the user-map value when the language map has no entry for `t`) contains no
`#{`, `replaceTags` of `#{t}` stops after two passes and returns exactly `v`. -/
theorem C3_registered_tag (self : LanguageManager) (t v : UString) (ht : '}' ∉ t)
    (hreg : mapFind self.mMapLanguage t = some v
      ∨ (mapFind self.mMapLanguage t = none ∧ mapFind self.mUserMapLanguage t = some v))
    (hv : hasOpen v = false) (n : Nat) :
    replaceTags self (n + 2) (placeholder t) = Except.ok v := by
  have hr : replacementFor self t = some v := by
    rcases hreg with h | ⟨h, h'⟩
    · exact replacementFor_language self h
    · exact replacementFor_user self h h'
  exact (replaceTags_placeholder self ht hr hv n).2

/-- Instance of the amended C3: the user tag `hi -> Hello`. -/
theorem C3_registered_tag_witness :
    replaceTags ⟨[], [], [], [(['h', 'i'], ['H', 'e', 'l', 'l', 'o'])], none, []⟩ 2
      (placeholder ['h', 'i']) = Except.ok ['H', 'e', 'l', 'l', 'o'] :=
  C3_registered_tag ⟨[], [], [], [(['h', 'i'], ['H', 'e', 'l', 'l', 'o'])], none, []⟩ ['h', 'i']
    ['H', 'e', 'l', 'l', 'o'] (by decide) (Or.inr ⟨by decide, by decide⟩) (by decide) 0

/-- C4 (as stated, refuted). With empty maps and no delegate, `replaceTags` maps `#{a#{b}`
to `##{a#{b}`, and that string to `##{a##{b}`: the returned string is not a fixed point
of a pass. -/
theorem C4_idempotent_counterexample :
    replaceTags blank 1 ['#', '{', 'a', '#', '{', 'b', '}']
        = Except.ok ['#', '#', '{', 'a', '#', '{', 'b', '}']
      ∧ replaceTagsPass blank ['#', '#', '{', 'a', '#', '{', 'b', '}']
        = Except.ok (['#', '#', '{', 'a', '#', '#', '{', 'b', '}'], false)
      ∧ replaceTags blank 1 ['#', '#', '{', 'a', '#', '{', 'b', '}']
        = Except.ok ['#', '#', '{', 'a', '#', '#', '{', 'b', '}']
      ∧ ∀ n, replaceTags blank n ['#', '#', '{', 'a', '#', '{', 'b', '}']
          ≠ Except.ok ['#', '#', '{', 'a', '#', '{', 'b', '}'] :=
  ⟨by decide, by decide, by decide, fun n h =>
    absurd (replaceTags_unique _ (n := 1) (r := ['#', '#', '{', 'a', '#', '#', '{', 'b', '}'])
      (by decide) h) (by decide)⟩

/-- C4 (amended). Let `replaceTags s` return `r`, and let `l` be the buffer its last pass ran
over. Then `r` is a fixed point (one more pass over `r` returns `r` and reports no
replacement) exactly when no terminated placeholder met by that last pass has, inside its
name, a `#{` that a scan of the name would meet; and in that case `replaceTags r = r`.
This holds for every input, every content of the maps, and with or without a delegate. -/
theorem C4_idempotent_clean_names (self : LanguageManager) (s l r : UString) (n : Nat)
    (h : replaceTags self n s = Except.ok r) (hl : lastPassInput self n s = some l) :
    (replaceTagsPass self r = Except.ok (r, false) ↔ CleanNames l)
      ∧ (CleanNames l → ∀ m, replaceTags self (m + 1) r = Except.ok r) := by
  obtain ⟨l', h1, h2⟩ := lastPassInput_spec self h
  rw [hl, Option.some.injEq] at h1
  subst h1
  have hp : CleanNames l → replaceTagsPass self r = Except.ok (r, false) := fun hc =>
    passFrom_of_settled self (settled_of_passFrom self hc false r h2) false
  exact ⟨⟨fun hf => cleanNames_of_settled self l false r h2 (settled_of_fixed self r false hf), hp⟩,
    fun hc m => replaceTags_of_pass_false self m (hp hc)⟩

/-- Instance of the amended C4: with `b -> B` only, `a#b#{x}` is settled by one pass, which
skips `#b` and escapes `#{x}`; the result `a#b##{x}` is left alone by a further pass. -/
theorem C4_idempotent_clean_names_witness :
    replaceTagsPass sampleTags ['a', '#', 'b', '#', '#', '{', 'x', '}']
        = Except.ok (['a', '#', 'b', '#', '#', '{', 'x', '}'], false)
      ∧ replaceTags sampleTags 1 ['a', '#', 'b', '#', '#', '{', 'x', '}']
        = Except.ok ['a', '#', 'b', '#', '#', '{', 'x', '}'] :=
  ⟨(C4_idempotent_clean_names sampleTags ['a', '#', 'b', '#', '{', 'x', '}']
      ['a', '#', 'b', '#', '{', 'x', '}'] ['a', '#', 'b', '#', '#', '{', 'x', '}'] 1
      (by decide) (by decide)).1.2
      (CleanNames.plain 'a' _ (by decide)
        (CleanNames.pair 'b' _ (by decide)
          (CleanNames.tag ['x'] [] (by decide)
            (Settled.plain 'x' _ (by decide) (Settled.plain '}' _ (by decide) Settled.nil))
            CleanNames.nil))),
    (C4_idempotent_clean_names sampleTags ['a', '#', 'b', '#', '{', 'x', '}']
      ['a', '#', 'b', '#', '{', 'x', '}'] ['a', '#', 'b', '#', '#', '{', 'x', '}'] 1
      (by decide) (by decide)).2
      (CleanNames.plain 'a' _ (by decide)
        (CleanNames.pair 'b' _ (by decide)
          (CleanNames.tag ['x'] [] (by decide)
            (Settled.plain 'x' _ (by decide) (Settled.plain '}' _ (by decide) Settled.nil))
            CleanNames.nil))) 0⟩

/-- C5 (as stated, refuted). The escaped text `##{b}` is returned unchanged although `b`
is a key of the language map, so the result contains the placeholder `#{b}`. And in
`#{a#{b}` the scan reads the name `a#{b`, which is no key: the text is escaped to
`##{a#{b}`, which contains `#{b}` behind an `a`. -/
theorem C5_all_rewritten_counterexample :
    replaceTags ⟨[], [], [(['b'], ['B'])], [], none, []⟩ 1 ('#' :: placeholder ['b'])
        = Except.ok (['#'] ++ placeholder ['b'] ++ [])
      ∧ (mapFind (LanguageManager.mk [] [] [(['b'], ['B'])] [] none []).mMapLanguage ['b']).isSome
          = true
      ∧ replaceTags ⟨[], [], [(['b'], ['B'])], [], none, []⟩ 1 ['#', '{', 'a', '#', '{', 'b', '}']
          = Except.ok (['#', '#', '{', 'a'] ++ placeholder ['b'] ++ []) := by
  decide

/-- C5 (amended). Let `replaceTags s` return `r`, and let no terminated placeholder met by
its last pass have, inside its name, a `#{` that a scan of the name would meet. Then every
placeholder text `#{t}` left in `r`, in particular one whose `t` is a key of a map, is
escaped: it stands behind a run of `#` of odd length, so its own `#` is the second
character of a pair that the scan skips. No unescaped placeholder is left. This holds for
every input, every content of the maps, and with or without a delegate. -/
theorem C5_placeholders_escaped (self : LanguageManager) (s l r : UString) (n : Nat)
    (h : replaceTags self n s = Except.ok r) (hl : lastPassInput self n s = some l)
    (hc : CleanNames l) (t a b : UString) (e : r = a ++ placeholder t ++ b) :
    ∃ a' k, a = a' ++ List.replicate (2 * k + 1) '#' ∧ a'.getLast? ≠ some '#' := by
  obtain ⟨l', h1, h2⟩ := lastPassInput_spec self h
  rw [hl, Option.some.injEq] at h1
  subst h1
  have hs : Settled r := settled_of_passFrom self hc false r h2
  exact hs.open_after_odd a (t ++ '}' :: b) (by simp) (by rw [e]; simp [placeholder])

/-- Instance of the amended C5: with `b -> B`, `#F#{b}##{b}` resolves in two passes to
`#FB##{b}`; the one `#{b}` left in it stands behind a single `#`. -/
theorem C5_placeholders_escaped_witness :
    replaceTags sampleTags 2 ['#', 'F', '#', '{', 'b', '}', '#', '#', '{', 'b', '}']
        = Except.ok (['#', 'F', 'B', '#'] ++ placeholder ['b'] ++ [])
      ∧ ∃ a' k, ['#', 'F', 'B', '#'] = a' ++ List.replicate (2 * k + 1) '#'
          ∧ a'.getLast? ≠ some '#' :=
  ⟨by decide,
    C5_placeholders_escaped sampleTags ['#', 'F', '#', '{', 'b', '}', '#', '#', '{', 'b', '}']
      ['#', 'F', 'B', '#', '#', '{', 'b', '}'] ['#', 'F', 'B', '#', '#', '{', 'b', '}'] 2
      (by decide) (by decide)
      (CleanNames.pair 'F' _ (by decide)
        (CleanNames.plain 'B' _ (by decide)
          (CleanNames.pair '#' _ (by decide)
            (CleanNames.plain '{' _ (by decide)
              (CleanNames.plain 'b' _ (by decide)
                (CleanNames.plain '}' _ (by decide) CleanNames.nil))))))
      ['b'] ['#', 'F', 'B', '#'] [] (by decide)⟩

/-- C6. With no delegate set, a placeholder whose name has no `}` and is a key of neither
map is escaped: the single pass returns `##{t}` and reports no replacement, so
`replaceTags` stops after that pass with `##{t}`. -/
theorem C6_unresolved_escaped (self : LanguageManager) (t : UString)
    (hc : self.eventRequestTag = none) (ht : '}' ∉ t)
    (hl : mapFind self.mMapLanguage t = none) (hu : mapFind self.mUserMapLanguage t = none) :
    replaceTagsPass self (placeholder t) = Except.ok (escaped t, false)
      ∧ replaceTags self 1 (placeholder t) = Except.ok (escaped t) := by
  have h1 : replaceTagsPass self (placeholder t) = Except.ok (escaped t, false) := by
    rw [replaceTagsPass_eq, placeholder,
      passFrom_escape self [] false ht (replacementFor_none self hl hu hc), passFrom_nil]
    simp [escaped]
  exact ⟨h1, replaceTags_of_pass_false self 0 h1⟩

/-- Instance of C6: the unknown tag `b`. -/
theorem C6_unresolved_escaped_witness :
    replaceTagsPass ⟨[], [], [(['a'], ['x'])], [], none, []⟩ (placeholder ['b'])
        = Except.ok (escaped ['b'], false)
      ∧ replaceTags ⟨[], [], [(['a'], ['x'])], [], none, []⟩ 1 (placeholder ['b'])
        = Except.ok (escaped ['b']) :=
  C6_unresolved_escaped _ ['b'] rfl (by decide) (by decide) (by decide)

/-- C7. Switching to a registered language `B` with files `files`: when loading `files` in
order into an empty manager gives `s0`, the switch returns the old manager with its
language map replaced by that of `s0`, the current language set to `B`, and the trace
extended by one stream request per file followed by exactly one change notification;
user map, registry and delegate are untouched. A tag that is in neither the new language
map nor the user map is then returned unchanged by `getTag`. The switch completes
exactly when that loading does. -/
theorem C7_setCurrentLanguage (env : Env) (self : LanguageManager) (B : StdString)
    (files : List StdString) (hB : mapFind self.mMapFile B = some files) :
    (∀ s0, loadFiles env files blank = Except.ok s0 →
        setCurrentLanguage env B self = Except.ok { self with
            mMapLanguage := s0.mMapLanguage
            mCurrentLanguageName := B
            trace := self.trace ++ files.map Effect.getData ++ [Effect.changeLanguage B] }
          ∧ ∀ t, mapFind s0.mMapLanguage t = none → mapFind self.mUserMapLanguage t = none →
              ∀ self', setCurrentLanguage env B self = Except.ok self' → getTag self' t = t)
      ∧ (∀ self', setCurrentLanguage env B self = Except.ok self' →
          ∃ s0, loadFiles env files blank = Except.ok s0) := by
  rw [setCurrentLanguage_eq env B self files hB, loadFiles_eq]
  cases filesTags env files with
  | error e =>
    refine ⟨fun s0 h => ?_, fun self' h => ?_⟩
    · cases h
    · cases h
  | ok tags =>
    refine ⟨fun s0 h => ?_, fun self' _ => ⟨_, rfl⟩⟩
    simp only [Except.ok.injEq] at h
    subst h
    refine ⟨rfl, fun t h1 h2 self' h => ?_⟩
    simp only [Except.ok.injEq] at h
    subst h
    simp only [blank] at h1
    simp only [getTag, h1, h2]

/-- Instance of C7: the sample manager switches from `fr` to `en`. -/
theorem C7_setCurrentLanguage_witness :
    setCurrentLanguage sampleEnv (ascii "en") sampleManager = Except.ok { sampleManager with
        mMapLanguage := [("hi".toList, "Hello".toList), ("bye".toList, [])]
        mCurrentLanguageName := ascii "en"
        trace := [Effect.getData (ascii "en.txt"), Effect.changeLanguage (ascii "en")] } :=
  ((C7_setCurrentLanguage sampleEnv sampleManager (ascii "en") [ascii "en.txt"] (by decide)).1
    ⟨[], [], [("hi".toList, "Hello".toList), ("bye".toList, [])], [], none,
      [Effect.getData (ascii "en.txt")]⟩ (by rfl)).1

/-- C8. Switching to a language that is not registered changes nothing: the manager
(current language, both maps, registry) is returned as it was, and its trace shows that
no file was requested and no change notification was sent. -/
theorem C8_setCurrentLanguage_unknown (env : Env) (self : LanguageManager) (name : StdString)
    (h : mapFind self.mMapFile name = none) :
    setCurrentLanguage env name self = Except.ok self := by
  simp only [setCurrentLanguage, h]

/-- Instance of C8: the sample manager has no language `de`. -/
theorem C8_setCurrentLanguage_unknown_witness :
    setCurrentLanguage sampleEnv (ascii "de") sampleManager = Except.ok sampleManager :=
  C8_setCurrentLanguage_unknown sampleEnv sampleManager (ascii "de") (by decide)

/-- C9. The lookup `getTag` falls back to the tag itself: a tag that is a key of neither
map is returned unchanged, and for a key of at least one map the result is a value stored
under it in one of the maps. (`getTag` is a `const` member: it only returns a string.) -/
theorem C9_getTag (self : LanguageManager) (t : UString) :
    (mapFind self.mMapLanguage t = none → mapFind self.mUserMapLanguage t = none →
        getTag self t = t)
      ∧ ((mapFind self.mMapLanguage t).isSome ∨ (mapFind self.mUserMapLanguage t).isSome →
          mapFind self.mMapLanguage t = some (getTag self t)
            ∨ mapFind self.mUserMapLanguage t = some (getTag self t)) := by
  refine ⟨fun h1 h2 => by simp only [getTag, h1, h2], fun h => ?_⟩
  cases h1 : mapFind self.mMapLanguage t with
  | some v => exact Or.inl (by simp only [getTag, h1])
  | none =>
    cases h2 : mapFind self.mUserMapLanguage t with
    | some v => exact Or.inr (by simp only [getTag, h1, h2])
    | none => simp [h1, h2] at h

/-- Instance of C9: an unknown tag and a language tag. -/
theorem C9_getTag_witness :
    getTag ⟨[], [], [(['h', 'i'], ['H'])], [], none, []⟩ ['b'] = ['b']
      ∧ (mapFind (LanguageManager.mk [] [] [(['h', 'i'], ['H'])] [] none []).mMapLanguage ['h', 'i']
            = some (getTag ⟨[], [], [(['h', 'i'], ['H'])], [], none, []⟩ ['h', 'i'])
          ∨ mapFind (LanguageManager.mk [] [] [(['h', 'i'], ['H'])] [] none []).mUserMapLanguage
            ['h', 'i'] = some (getTag ⟨[], [], [(['h', 'i'], ['H'])], [], none, []⟩ ['h', 'i'])) :=
  ⟨(C9_getTag ⟨[], [], [(['h', 'i'], ['H'])], [], none, []⟩ ['b']).1 (by decide) (by decide),
    (C9_getTag ⟨[], [], [(['h', 'i'], ['H'])], [], none, []⟩ ['h', 'i']).2 (Or.inl (by decide))⟩

/-- C10. The flag returned by `loadLanguage(file, user)` is `false` exactly when the stream
source has no such file, and then the manager is returned with nothing but the stream
request added to its trace. When it returns `true`, only the selected map (the user map
if `user`, else the language map) can differ: registry, current language, delegate and
the other map are unchanged, and every key the file does not define keeps its entry.
It does return `true` whenever the file exists and its lines are read without an
out-of-range access. `loadUserTags(file)` is `loadLanguage(file, true)`. -/
theorem C10_loadLanguage (env : Env) (file : StdString) (user : Bool) (self : LanguageManager) :
    (env.getData file = none →
        loadLanguage env file user self
          = Except.ok (false, { self with trace := self.trace ++ [Effect.getData file] }))
      ∧ (∀ b self', loadLanguage env file user self = Except.ok (b, self') →
          (b = false ↔ env.getData file = none)
            ∧ self'.mMapFile = self.mMapFile
            ∧ self'.mCurrentLanguageName = self.mCurrentLanguageName
            ∧ self'.eventRequestTag = self.eventRequestTag
            ∧ self'.trace = self.trace ++ [Effect.getData file]
            ∧ selectedMap self' (!user) = selectedMap self (!user)
            ∧ ∃ tags, fileTags env file = Except.ok tags
                ∧ ∀ k, k ∉ (tags.getD []).map Prod.fst →
                    mapFind (selectedMap self' user) k = mapFind (selectedMap self user) k)
      ∧ (∀ tags, fileTags env file = Except.ok (some tags) →
          ∃ self', loadLanguage env file user self = Except.ok (true, self'))
      ∧ loadUserTags env file self = loadLanguage env file true self := by
  refine ⟨fun h => ?_, fun b self' h => ?_, fun tags h => ?_, rfl⟩
  · simp only [loadLanguage, h]
  · rw [loadLanguage_eq] at h
    have hnone : ∀ o, fileTags env file = Except.ok o → (o = none ↔ env.getData file = none) := by
      intro o ho
      unfold fileTags at ho
      cases hd : env.getData file with
      | none => rw [hd] at ho; cases ho; simp
      | some data =>
        rw [hd] at ho
        simp only at ho
        split at ho
        · cases ho; simp
        · split at ho
          · cases ho; simp
          · cases ho
    cases hf : fileTags env file with
    | error e => rw [hf] at h; cases h
    | ok o =>
      rw [hf] at h
      cases o with
      | none =>
        simp only [Except.ok.injEq, Prod.mk.injEq] at h
        obtain ⟨rfl, rfl⟩ := h
        refine ⟨by simpa using (hnone none hf), rfl, rfl, rfl, rfl, ?_, none, rfl, fun k _ => ?_⟩
        · cases user <;> rfl
        · cases user <;> rfl
      | some tags =>
        simp only [Except.ok.injEq, Prod.mk.injEq] at h
        obtain ⟨rfl, rfl⟩ := h
        have hsome := hnone (some tags) hf
        cases user with
        | true =>
          rw [foldl_setTag_user]
          refine ⟨by simpa using hsome, rfl, rfl, rfl, rfl, rfl, some tags, rfl, fun k hk => ?_⟩
          exact mapFind_storeMap tags _ k hk
        | false =>
          rw [foldl_setTag_language]
          refine ⟨by simpa using hsome, rfl, rfl, rfl, rfl, rfl, some tags, rfl, fun k hk => ?_⟩
          exact mapFind_storeMap tags _ k hk
  · rw [loadLanguage_eq, h]
    exact ⟨_, rfl⟩

/-- Instance of C10: a missing file and an existing one, loaded as user tags. -/
theorem C10_loadLanguage_witness :
    loadLanguage sampleEnv (ascii "none.txt") true sampleManager
        = Except.ok (false, { sampleManager with trace := [Effect.getData (ascii "none.txt")] })
      ∧ (∃ self', loadLanguage sampleEnv (ascii "en.txt") true sampleManager
          = Except.ok (true, self')) :=
  ⟨(C10_loadLanguage sampleEnv (ascii "none.txt") true sampleManager).1 (by decide),
    (C10_loadLanguage sampleEnv (ascii "en.txt") true sampleManager).2.2.1
      [("hi".toList, "Hello".toList), ("bye".toList, [])] (by decide)⟩

/-- C11 (as stated, refuted). The line `a  b` (two spaces) is stored as `a` with the
replacement ` b`: only one separator byte is dropped, not the run. -/
theorem C11_legacy_run_counterexample :
    legacyLine (ascii "a  b") = Except.ok (some (ascii "a", ascii " b"))
      ∧ ascii " b" ≠ ascii "b" := by
  decide

/-- C11 (amended). For a line that is not empty after header and carriage-return
stripping, with `p` the stripped text: if `p` has no space or tab the whole of `p` is
stored as a tag with the empty replacement; otherwise the tag name is the text before the
first space or tab and the replacement is everything after that one byte, verbatim. -/
theorem C11_legacy_split (read p : StdString) (hne : read ≠ []) (hs : stripLine read = Except.ok p)
    (hp : p ≠ []) :
    ((∀ c ∈ p, ¬ isBlank c) → legacyLine read = Except.ok (some (p, [])))
      ∧ (∀ name sep rest, p = name ++ sep :: rest → (∀ c ∈ name, ¬ isBlank c) → isBlank sep →
          legacyLine read = Except.ok (some (name, rest))) := by
  rw [legacyLine_eq read hne, hs]
  simp only [if_neg hp]
  refine ⟨fun h => by rw [findFirstOfBlank_none h], fun name sep rest e hn hsep => ?_⟩
  subst e
  rw [findFirstOfBlank_append sep rest hn hsep]
  simp

/-- Instance of the amended C11: the lines `greeting<TAB>Hello` and `flag`. -/
theorem C11_legacy_split_witness :
    legacyLine (ascii "greeting\tHello") = Except.ok (some (ascii "greeting", ascii "Hello"))
      ∧ legacyLine (ascii "flag") = Except.ok (some (ascii "flag", [])) :=
  ⟨(C11_legacy_split (ascii "greeting\tHello") (ascii "greeting\tHello") (by decide) (by decide)
      (by decide)).2 (ascii "greeting") 9 (ascii "Hello") (by decide) (by decide) (by decide),
    (C11_legacy_split (ascii "flag") (ascii "flag") (by decide) (by decide) (by decide)).1
      (by decide)⟩

/-- C12 (failing input). The line `EF BC A1 62 20 78` (a fullwidth `A`, then `b x`) does
not begin with the byte-order mark, yet its first three bytes are erased: the tag stored
is `b`, not the text before the space. -/
theorem C12_header_failing_input :
    [0xEF, 0xBC, 0xA1, 0x62, 0x20, 0x78].take 3 ≠ ([0xEF, 0xBB, 0xBF] : StdString)
      ∧ stripLine [0xEF, 0xBC, 0xA1, 0x62, 0x20, 0x78] = Except.ok [0x62, 0x20, 0x78]
      ∧ legacyLine [0xEF, 0xBC, 0xA1, 0x62, 0x20, 0x78] = Except.ok (some ([0x62], [0x78])) := by
  decide

/-- C13 (as stated, refuted). The tree has no `default` attribute and its only `Info` has
no name; its source `en.txt` is loaded as a user tag file (the user map gains `hi` and
`bye`), but the only effect recorded is the stream request: no change notification. -/
theorem C13_user_hot_load_counterexample :
    defaultLanguage sampleUserTree = []
      ∧ (_load sampleEnv sampleUserTree sampleManager).map (fun s => s.mUserMapLanguage)
          = Except.ok [("app".toList, "Demo".toList), ("hi".toList, "Hello".toList),
              ("bye".toList, [])]
      ∧ (_load sampleEnv sampleUserTree sampleManager).map (fun s => s.trace)
          = Except.ok [Effect.getData (ascii "en.txt")] := by
  decide

/-- C13 (amended). For a tree without (non-empty) `default` attribute, `_load` adds to the
trace the stream requests of its hot loads and then, exactly when at least one `Source`
is registered under the currently active language, one change notification carrying the
current language name, as the last effect. User tag files loaded for an `Info` without
name raise no notification. Ingestion returns whenever no file faults. -/
theorem C13_notification (env : Env) (node : XmlElement) (self : LanguageManager)
    (hd : defaultLanguage node = []) :
    (∀ self', _load env node self = Except.ok self' →
        ∃ loads, OnlyRequests loads
          ∧ self'.trace = self.trace ++ loads ++
              (if registersUnder self.mCurrentLanguageName (registrations node) then
                [Effect.changeLanguage self.mCurrentLanguageName]
              else []))
      ∧ (env.Safe → ∃ self', _load env node self = Except.ok self') := by
  refine ⟨fun self' h => ?_, fun hs => _load_returns hs node self⟩
  obtain ⟨s1, ev, hi, hfin⟩ := _load_ingested h
  obtain ⟨loads, ho, ht⟩ := hi.trace
  have hflag : ev = registersUnder self.mCurrentLanguageName (registrations node) := by
    simpa using hi.flag
  rw [if_neg (by simp [hd])] at hfin
  refine ⟨loads, ho, ?_⟩
  cases ev with
  | true =>
    rw [if_pos rfl] at hfin
    rw [← hflag, hfin, if_pos rfl, eventChangeLanguage, ht, hi.name]
  | false =>
    rw [if_neg (by decide)] at hfin
    rw [← hflag, hfin, ht]
    simp

/-- Instance of the amended C13: the sample tree registers `fr2.txt` under the active
language `fr`, so one notification for `fr` ends the trace. -/
theorem C13_notification_witness :
    ∃ loads, OnlyRequests loads
      ∧ [Effect.getData (ascii "fr2.txt"), Effect.getData (ascii "en.txt"),
          Effect.changeLanguage (ascii "fr")]
        = sampleManager.trace ++ loads ++
            (if registersUnder sampleManager.mCurrentLanguageName (registrations sampleTree) then
              [Effect.changeLanguage sampleManager.mCurrentLanguageName]
            else []) :=
  (C13_notification sampleEnv sampleTree sampleManager (by decide)).1
    { sampleManager with
      mMapFile := [(ascii "en", [ascii "en.txt"]), (ascii "fr", [ascii "fr.txt", ascii "fr2.txt"]),
        (ascii "de", [ascii "de.txt"])]
      mUserMapLanguage := [("app".toList, "Demo".toList), ("hi".toList, "Hello".toList),
        ("bye".toList, [])]
      trace := [Effect.getData (ascii "fr2.txt"), Effect.getData (ascii "en.txt"),
        Effect.changeLanguage (ascii "fr")] }
    (by rfl)

/-- C14. The registry only grows. `_load` leaves the registry that results from pushing the
`Source` values of the `Info` elements with a non-empty name, in document order, each to
the list of its name: every old list is a prefix of the new one, every name so registered
is returned by `getLanguages`, and no registration has an empty name. `setCurrentLanguage`,
`loadLanguage`, `loadUserTags`, `addUserTag` and `clearUserTags` leave the registry as it
is (`getTag` and `replaceTags` only return a string). -/
theorem C14_registry_grows (env : Env) (self : LanguageManager) :
    (∀ node self', _load env node self = Except.ok self' →
        self'.mMapFile = registerAll self.mMapFile (registrations node)
          ∧ RegistryGrows self.mMapFile self'.mMapFile
          ∧ (∀ n, mapFind self'.mMapFile n =
              if filesOf n (registrations node) = [] then mapFind self.mMapFile n
              else some ((mapFind self.mMapFile n).getD [] ++ filesOf n (registrations node)))
          ∧ (∀ p ∈ registrations node, p.1 ≠ [] ∧ p.1 ∈ getLanguages self'))
      ∧ (∀ name self', setCurrentLanguage env name self = Except.ok self' →
          self'.mMapFile = self.mMapFile)
      ∧ (∀ file user b self', loadLanguage env file user self = Except.ok (b, self') →
          self'.mMapFile = self.mMapFile)
      ∧ (∀ file b self', loadUserTags env file self = Except.ok (b, self') →
          self'.mMapFile = self.mMapFile)
      ∧ (∀ tag value, (addUserTag self tag value).mMapFile = self.mMapFile)
      ∧ (clearUserTags self).mMapFile = self.mMapFile
      ∧ (env.Safe → ∀ node, ∃ self', _load env node self = Except.ok self') := by
  refine ⟨fun node self' h => ?_, fun name self' h => setCurrentLanguage_registry h,
    fun file user b self' h => (loadLanguage_frame h).1,
    fun file b self' h => (loadLanguage_frame h).1, fun _ _ => rfl, rfl,
    fun hs node => _load_returns hs node self⟩
  obtain ⟨s1, ev, hi, hfin⟩ := _load_ingested h
  have hreg : self'.mMapFile = registerAll self.mMapFile (registrations node) := by
    rw [← hi.registry]
    by_cases hd : defaultLanguage node ≠ []
    · rw [if_pos hd] at hfin
      exact setCurrentLanguage_registry hfin
    · rw [if_neg hd] at hfin
      cases ev with
      | true => rw [if_pos rfl] at hfin; rw [hfin]; rfl
      | false => rw [if_neg (by decide)] at hfin; rw [hfin]
  refine ⟨hreg, ?_, fun n => ?_, fun p hp => ⟨rootsRegistrations_name hp, ?_⟩⟩
  · rw [hreg]; exact registryGrows_registerAll _ _
  · rw [hreg]; exact mapFind_registerAll _ _ n
  · rw [getLanguages, hreg]; exact mem_keys_registerAll _ hp

/-- Instance of C14: after the sample tree, `fr` lists `fr.txt` then `fr2.txt`, and the new
language `de` is known. -/
theorem C14_registry_grows_witness :
    mapFind (registerAll sampleManager.mMapFile (registrations sampleTree)) (ascii "fr")
        = some [ascii "fr.txt", ascii "fr2.txt"]
      ∧ [(ascii "en", [ascii "en.txt"]), (ascii "fr", [ascii "fr.txt", ascii "fr2.txt"]),
          (ascii "de", [ascii "de.txt"])]
        = registerAll sampleManager.mMapFile (registrations sampleTree) :=
  ⟨by decide,
    ((C14_registry_grows sampleEnv sampleManager).1 sampleTree
      { sampleManager with
        mMapFile := [(ascii "en", [ascii "en.txt"]),
          (ascii "fr", [ascii "fr.txt", ascii "fr2.txt"]), (ascii "de", [ascii "de.txt"])]
        mUserMapLanguage := [("app".toList, "Demo".toList), ("hi".toList, "Hello".toList),
          ("bye".toList, [])]
        trace := [Effect.getData (ascii "fr2.txt"), Effect.getData (ascii "en.txt"),
          Effect.changeLanguage (ascii "fr")] }
      (by rfl)).1⟩

/-- C15. Within one pass the scan resumes right after the inserted replacement: for text
`p` without `#`, a tag `t` without `}` whose replacement is `v` (language value, else user
value, else what the delegate supplies) and any rest `r`, the pass over `r` returns some
`out`, and the pass over `p ++ #{t} ++ r` returns `p ++ v ++ out` and reports a
replacement. The replacement is not scanned in this pass. -/
theorem C15_resume_after_replacement (self : LanguageManager) (p t v r : UString)
    (hp : '#' ∉ p) (ht : '}' ∉ t) (hr : replacementFor self t = some v) :
    ∃ out f, replaceTagsPass self r = Except.ok (out, f)
      ∧ replaceTagsPass self (p ++ placeholder t ++ r) = Except.ok (p ++ v ++ out, true) := by
  obtain ⟨out, f, ho⟩ := passFrom_total self r false
  refine ⟨out, f, ho, ?_⟩
  rw [replaceTagsPass_splice self r hp ht hr, replaceTagsPass_eq, ho]
  rfl

/-- Instance of C15: with `A -> #{A}`, the pass over `x#{A}#{A}` puts the value twice and
scans neither copy: it returns `x#{A}#{A}` with the flag set. -/
theorem C15_resume_after_replacement_witness :
    ∃ out f, replaceTagsPass sampleCycle (placeholder ['A']) = Except.ok (out, f)
      ∧ replaceTagsPass sampleCycle (['x'] ++ placeholder ['A'] ++ placeholder ['A'])
          = Except.ok (['x'] ++ placeholder ['A'] ++ out, true) :=
  C15_resume_after_replacement sampleCycle ['x'] ['A'] (placeholder ['A']) (placeholder ['A'])
    (by decide) (by decide) (by decide)

/-- C17 (failing input). A line that consists of the three bytes of the byte-order mark is
emptied by the erase, and the carriage-return test then reads the last byte of an empty
buffer; a stream that holds such a line is not loaded. -/
theorem C17_empty_after_header_failing_input :
    legacyLine [0xEF, 0xBB, 0xBF] = Except.error Fault.outOfRange
      ∧ legacyLine [0xEF, 0x41, 0x42] = Except.error Fault.outOfRange
      ∧ legacyTags sampleEnv (readLines ([0xEF, 0xBB, 0xBF, 10] ++ ascii "hi Hello"))
          = Except.error Fault.outOfRange := by
  decide

/-- C18. During a pass the cursor stays within the buffer: at the head of every iteration
it is at most the current length. The iteration at a placeholder `#{tag}` at position
`pos` that has a replacement `v` replaces the span by `v` and leaves the cursor at `pos`
plus the number of code points of `v` (where the pass returns when that is the end of the
buffer); this holds for every buffer, map content and delegate output, whatever code
points `v` holds. -/
theorem C18_cursor_in_bounds (self : LanguageManager) :
    (∀ line n s, stateAfter self line n = some s → s.iter ≤ List.length s.line)
      ∧ (∀ (pre tag post v : UString) (f : Bool), '}' ∉ tag →
          replacementFor self tag = some v →
          replaceTagsPassStep self ⟨pre ++ placeholder tag ++ post, List.length pre, f⟩
            = if List.length pre + List.length v = List.length (pre ++ v ++ post) then
                PassStep.ret (pre ++ v ++ post) true
              else PassStep.next ⟨pre ++ v ++ post, List.length pre + List.length v, true⟩) :=
  ⟨fun line n s h => stateAfter_in_bounds self line n s h,
    fun pre tag post v f ht hr => step_splice self pre tag post v f ht hr⟩

/-- Instance of C18: with `e -> U+1F600`, the second iteration of the pass over `a#{e}z`
splices at position 1 and leaves the cursor at 2, inside the buffer of three code points. -/
theorem C18_cursor_in_bounds_witness :
    (2 ≤ List.length ['a', Char.ofNat 0x1F600, 'z'])
      ∧ replaceTagsPassStep ⟨[], [], [(['e'], [Char.ofNat 0x1F600])], [], none, []⟩
          ⟨['a'] ++ placeholder ['e'] ++ ['z'], 1, false⟩
        = PassStep.next ⟨['a', Char.ofNat 0x1F600, 'z'], 2, true⟩ :=
  ⟨(C18_cursor_in_bounds ⟨[], [], [(['e'], [Char.ofNat 0x1F600])], [], none, []⟩).1
      (['a'] ++ placeholder ['e'] ++ ['z']) 2 ⟨['a', Char.ofNat 0x1F600, 'z'], 2, true⟩
      (by decide),
    (C18_cursor_in_bounds ⟨[], [], [(['e'], [Char.ofNat 0x1F600])], [], none, []⟩).2
      ['a'] ['e'] ['z'] [Char.ofNat 0x1F600] false (by decide) (by decide)⟩

/-- C19. With no delegate and no `{` in any value of the two maps, `replaceTags` returns on
every input `s` within `k + 1` passes, `k` the number of `{` in `s`; and every pass that
reports a replacement returns a buffer with fewer `{` than it was given. -/
theorem C19_terminates_without_braces (self : LanguageManager)
    (hc : self.eventRequestTag = none)
    (hv : ∀ k v, mapFind self.mMapLanguage k = some v ∨ mapFind self.mUserMapLanguage k = some v →
      '{' ∉ v)
    (s : UString) :
    (∃ r, replaceTags self (braces s + 1) s = Except.ok r)
      ∧ ∀ l out, replaceTagsPass self l = Except.ok (out, true) → braces out < braces l := by
  have hv' : ∀ t v, replacementFor self t = some v → '{' ∉ v :=
    fun t v h => replacementFor_of_maps self hc (P := fun v => '{' ∉ v) hv h
  exact ⟨replaceTags_terminates self hv' (braces s) s (Nat.le_refl _),
    fun l out h => (passFrom_braces self hv' l false out true h).2 rfl rfl⟩

/-- Instance of C19: the sample manager (values `Salut`, `Oui`, `Demo`) on `#{hi}#{x}`,
which has two `{`: `replaceTags` returns within three passes. -/
theorem C19_terminates_without_braces_witness :
    (∃ r, replaceTags sampleManager
        (braces (placeholder ['h', 'i'] ++ placeholder ['x']) + 1)
        (placeholder ['h', 'i'] ++ placeholder ['x']) = Except.ok r)
      ∧ ∀ l out, replaceTagsPass sampleManager l = Except.ok (out, true) →
          braces out < braces l :=
  C19_terminates_without_braces sampleManager rfl
    (fun k v h => by
      have hm : v = "Salut".toList ∨ v = "Oui".toList ∨ v = "Demo".toList := by
        simp only [sampleManager, mapFind] at h
        rcases h with h | h
        · by_cases h1 : "hi".toList = k
          · rw [if_pos h1] at h; exact Or.inl (Option.some.inj h).symm
          · rw [if_neg h1] at h
            by_cases h2 : "oui".toList = k
            · rw [if_pos h2] at h; exact Or.inr (Or.inl (Option.some.inj h).symm)
            · rw [if_neg h2] at h; cases h
        · by_cases h1 : "app".toList = k
          · rw [if_pos h1] at h; exact Or.inr (Or.inr (Option.some.inj h).symm)
          · rw [if_neg h1] at h; cases h
      rcases hm with rfl | rfl | rfl <;> decide)
    (placeholder ['h', 'i'] ++ placeholder ['x'])

/-- C20. A single pass returns on every input, for every content of the maps and whatever
the delegate supplies; and at every iteration of its loop that goes on to a next one, the
number of code points after the cursor gets smaller. -/
theorem C20_pass_terminates (self : LanguageManager) :
    (∀ s : UString, ∃ out f, replaceTagsPass self s = Except.ok (out, f))
      ∧ ∀ line n s s', stateAfter self line n = some s →
          replaceTagsPassStep self s = PassStep.next s' →
          List.length s'.line - s'.iter < List.length s.line - s.iter :=
  ⟨fun s => passFrom_total self s false,
    fun line n s s' h hs =>
      step_decreases self s s'
        (step_next_lt self s s' (stateAfter_in_bounds self line n s h) hs) hs⟩

/-- Instance of C20: a delegate that answers `xyz` to every tag; the pass over `#{q}!`
returns, and its first iteration, the splice, leaves one code point after the cursor
where there were five. -/
theorem C20_pass_terminates_witness :
    (∃ out f, replaceTagsPass ⟨[], [], [], [], some fun _ => ['x', 'y', 'z'], []⟩
        (placeholder ['q'] ++ ['!']) = Except.ok (out, f))
      ∧ List.length ['x', 'y', 'z', '!'] - 3 < List.length (placeholder ['q'] ++ ['!']) - 0 :=
  ⟨(C20_pass_terminates ⟨[], [], [], [], some fun _ => ['x', 'y', 'z'], []⟩).1
      (placeholder ['q'] ++ ['!']),
    (C20_pass_terminates ⟨[], [], [], [], some fun _ => ['x', 'y', 'z'], []⟩).2
      (placeholder ['q'] ++ ['!']) 0 ⟨placeholder ['q'] ++ ['!'], 0, false⟩
      ⟨['x', 'y', 'z', '!'], 3, true⟩ (by decide) (by decide)⟩

end MyGUI
